import Mathlib

/-!
# Buzhash: a cyclic-polynomial rolling hash over a fixed byte buffer

A shallow embedding of `internal/hasher/buzhash.go` and of the two builds of
`bulkRoll`: `internal/hasher/bulkroll.go` (build tag `!cgo`) and
`internal/hasher/bulkroll_cgo.go` (build tag `cgo`).

Conventions of the embedding:
* a Go `[]byte` is a `List Byte`; `len(buf)` is `buf.length` (a Go `int`,
  which on 64-bit targets may exceed `2^32`);
* `uint32` and `uint64` values are natural numbers; every arithmetic
  operation the source performs on them is followed by an explicit
  reduction modulo `2^32` or `2^64`, and the conversion `uint32(len(buf))`
  is `buf.length % 2^32`;
* a run-time panic (index out of range, slice bounds out of range, integer
  division by zero) is an explicit outcome, never a default value.
-/

namespace Buzhash

/-- A byte, the element type of Go's `[]byte`. -/
abbrev Byte := Fin 256

/-- The four sentinel errors of the package. -/
inductive GoError where
  | ErrNotWritable
  | ErrWindowTooLong
  | ErrIllegalRoll
  | ErrIllegalStride
  deriving DecidableEq, Repr

/-- The constant `hashSizeBytes`. -/
def hashSizeBytes : Nat := 8

/-- The 256 random 64-bit words of `table`, one per byte value. -/
def table : List Nat := [
  0x6ac7ec3ab38484f, 0x925ae6f064171c28, 0x244495b205ce4c02, 0x66c6c503cd5c8230, 0x87882a1c9f1bc3e4, 0x979e21b3bf012cd2,
  0x6ff31e3b9a8b7056, 0x769db390094f640c, 0xe0a4a529b57bc3b, 0xc65560e187430aad, 0x52798fcb2fd23177, 0x64a792c71a9564d7,
  0xf39964707459aad1, 0xc879bee54d646279, 0x495d5c2cf4050ac3, 0x7d131a0421572566, 0xcab1d313d9b9365f, 0xbb566185972fe27f,
  0x3716a4e257a72420, 0x76e09e28e3ba151f, 0x7ae0cd88bf4022b8, 0x7eb8191af9ee2efa, 0xa69056756e4b209b, 0xa6d429436d97d1e5,
  0xa693b298e6009b6d, 0xb1fcfbbdb9c4968a, 0x23b026758294472d, 0x3db0dd6de3f13790, 0xf718b3bd1360ea86, 0xb76fa906c1bb53ce,
  0xa8aaa7ecff4d3c80, 0x78af34f2c2b211c8, 0x82af9cac5fdaf238, 0x539e69b70f0b9ce3, 0x8fb8c622f3de6b11, 0x1eb08a7aa9a97b5b,
  0x5210dabbb4b81de2, 0xff948b69a8803ba3, 0xd32c970b0dc60fd6, 0x6e364853438caafa, 0x46eee6f5d6d58e2e, 0xfbc987102182b39e,
  0x22cfb788dc34a095, 0x500530e71415124, 0xca9a1d57e5a64ea4, 0x187183fe5c5fae1e, 0xa4c04f966960636b, 0x6789f7bf3433b25a,
  0xe68b134541af4bbb, 0x2b12bdfda0cd2888, 0x57973822e755f2a0, 0xe0fd835d70218c66, 0x4f4e92692f24b98, 0x9aab82964927f460,
  0xe19d25c7b84d259b, 0x1981ae513780a89d, 0x225aa7aa7edc164d, 0x49b2bf05cf572e7d, 0x12c0dfe80eb7c01f, 0xb880fa65807ac921,
  0x98f683c79da6de7d, 0xe3e3f9712cb823e0, 0x112718fe7d6e0577, 0x965594a9083aeb59, 0xd23538e3f9a3a50d, 0xd281b4667af136de,
  0x6965a4268d1e0019, 0x5d5c5664a853523f, 0x51186d2df1ff305d, 0x5ca3afdddc7cd7d0, 0x7a1d198925e0df3, 0x252fd8d8eb2a48fe,
  0xc9783ed5d3178c6c, 0x4106755511fa7f64, 0x7c21cb8c25b489bc, 0x489459629f1c70b6, 0x2d9e41451a305457, 0xe9dd5eadac5b114b,
  0x8e16cb3284d3b3a1, 0x46de1e27b369a389, 0xe18c10897ac7a644, 0x1d74f7aeed69dbe1, 0x85086cfa562c3d51, 0x5249b1b0add0785a,
  0x62dee24b58981336, 0xdf9b86c236dedcf4, 0xa5a9699dd9911772, 0xcfcd3174dee306f7, 0x36f2a7a360f9b5d1, 0xde24e112854f5a86,
  0xc339740d4616b792, 0x23242cf1387c4434, 0xf863beef8a52a054, 0x6f57ac02b0805f82, 0x4ee02f75dd9d8b2b, 0x9db665e4ab9c8162,
  0x59463a08ff07c79c, 0xb054905d9a5189a9, 0xea105bcc1ced75a1, 0x9d3313bd02c4c785, 0xa1d1fe2c4e186f6a, 0xa451929c08d74f6f,
  0xc252dfb0a025b28a, 0x212aa981423ac4b5, 0x1accb6134653f0ea, 0x116a829730bef8fd, 0x134b78ca68261550, 0x3c81dc692faa174e,
  0x787c597ab1057102, 0xf262666a59f5bb77, 0x488c76b8d7dc71e6, 0x5b0927d6146c3a09, 0xe5e8392425368a87, 0xffa02d5f0db0020c,
  0x595c0f3384c97670, 0x4446900f000a21f8, 0xca5d93eff0b8ee1f, 0xa9ce4762daec734a, 0xf228a1a91eaff56b, 0x9a5dda6c513df5b,
  0xeeea75a99a70c05d, 0x2450181e7c778c1e, 0x3e20446fc0739a37, 0x789bd178a12432b8, 0x2cd013f2c6e30a02, 0x3e289c877e3216fb,
  0x2b467b97bdbbf046, 0x70a2e70c398385f9, 0xb309f50bedc45cd2, 0xab1c87318ed184cf, 0xff05174b6f671831, 0xaed32194063a4322,
  0x75429d35ddb5bfbd, 0x7ee1d1b65b71356e, 0x9bc6998b259da74d, 0x94d77784160c05e7, 0xe626bb219a8c0ff5, 0xd34e0ccc4ad855ac,
  0x91372ceceb7b8a24, 0xb86da3630e9c82eb, 0x4e45e3efcb170abb, 0x52e25ee2e2fa58d7, 0x3a29d311bca383d5, 0x849376b654ab150f,
  0xe88ec4da58b0d34, 0x7caa1b69024dd2a4, 0x70ad07192ba6926f, 0x1cf3d80c9c7fb676, 0xcefec8418d734bed, 0xb0b59760914b582b,
  0xfedf873bb570b5c9, 0x1e727de4bd865abc, 0xd1a8ceb82b920504, 0x88e8473859dd126f, 0xd212b3940fa5e6, 0xce029cce021d3ab8,
  0x472c692d26300943, 0xc3af132b79588a9c, 0x4185a9cc5ac2f073, 0x158f98b999ed69e5, 0x81cbb4e387cf5283, 0x5ff8a3a88663ff75,
  0xe2ca04ca27a2a31b, 0xb02c7c22030c25c8, 0x8d182d8a677ba196, 0xbdc1b7b1fd4b17aa, 0x31f294fc7a178d17, 0x45cab21ca66f5846,
  0xab04020244c4c4eb, 0xb9dcca0cf419981f, 0x2d91bed64347326a, 0x7218e987b5b1c051, 0x1165716693744a56, 0xd3d409c18c259aee,
  0xd5d676f27c86281f, 0xdd87ad06b53b2e87, 0x79e351c9dfb81de0, 0x5456880b83f75123, 0x55119453891f9dfa, 0xd8a362764f2c3732,
  0xbf1ad01073dee5ae, 0x9c223cab423829a5, 0x83c5fc36bd67266a, 0x390c9de142ec1ef0, 0xd833092ec8802130, 0x356dce302b7b1adb,
  0x3b4317cb6cfc66ec, 0x7ab780d895a87847, 0x5c9d6143c9d0ded2, 0x80ecee69d0ff12e3, 0xc373816880c77cdb, 0x54b7f418bb1e262,
  0xcf309f60ba38e5dc, 0x3bc2508d23438e21, 0xe1975e1332552dd, 0x58eec373f5101095, 0xb31830b2a0513c7b, 0x22cddb7b6a9ec6ef,
  0xf2becee9191551bb, 0xd88b42ebd98e8fd4, 0x92111f5561e7a8c6, 0xca7f3b6c4aad07ee, 0x3a8b89659cfbe7fc, 0x352402d921bbac38,
  0xb436ee0a191f9ddf, 0x43e9e16c8387a57, 0x851aab38ac27a0cb, 0x52168667f16bfd3d, 0x33f5bf131dfe8684, 0xe59d5b1bd51b025b,
  0xad9309e7234936b, 0x80bebf67a0e0615b, 0x82cda0f9170fa7f7, 0xebedaccbf0aef25e, 0xcd30a524e7a52b2, 0x3943adbdc665da65,
  0x8c535dcdd9ecd404, 0x3bb21c39e4c0d31b, 0x219ed8c92878321e, 0x4601c510eed8c6b7, 0xdfb017785619791e, 0xc16da260ea26c2e6,
  0xfe6ce35daf7c5ea2, 0x89d7aab27be3b408, 0x5790291fc841a55f, 0x1fa58028db6402cf, 0x74ca16d8de6a89ba, 0xcb87f3adc0e8ca03,
  0x7789849db69b71cf, 0x90d2b3ee093e7167, 0x42ea38f41ca84365, 0x5cf7d98dcb74536b, 0x79ac67f7a493ed7, 0x99876aa772dd632a,
  0xb3b4808dcfb682b7, 0xf0ba2ed5611261ad, 0x20560be7663813ed, 0x199b810be621dff9, 0x63667730b1f94cea, 0x7000eef34d6cb9a0,
  0x14696eba050883b5, 0x58015ab5b232d681, 0x783ba52bd84406f6, 0x3cf6688185746dce, 0xa111dedf4b43c846, 0xf74a7ada4264e8d,
  0xcec1d0c53f5e9c27, 0x2c62628525f7b6e1, 0x7c3da07729159f12, 0x86c3b06b44d6b976, 0x91c5c39aad05664a, 0xc04706984f5330b,
  0x731aba530128958c, 0x15ef4b57ffb49d88, 0xe89f7e30e4abc977, 0x3e8493ccd3ba8734
]

/-- The array read `table[b]` for a byte `b`; the index is always in range
because the array has 256 entries. -/
def tableAt (b : Byte) : Nat := table.getD b.val 0

/-- Go's `bits.RotateLeft64(x, k)`: with `s = uint(k) & 63` the result is
`x<<s | x>>(64-s)` in 64-bit arithmetic. Every call site passes a
non-negative `k`, so `uint(k) & 63` is `k % 64`. -/
def rotateLeft64 (x k : Nat) : Nat :=
  let s := k % 64
  ((x <<< s) % 2 ^ 64) ||| (x >>> (64 - s))

/-- The function `hashBuf`: the loop `for i := 0; i < n; i++` folds
`h ^= bits.RotateLeft64(table[p[i]], n-1-i)` from `h = 0`. The read `p[i]`
is in range because `i < n = len(p)`. -/
def hashBuf (p : List Byte) : Nat :=
  let n := p.length
  (List.range n).foldl
    (fun h i => h ^^^ rotateLeft64 (tableAt (p.getD i 0)) (n - 1 - i)) 0

/-- The exported helper `Hash`. -/
def Hash (buf : List Byte) : Nat := hashBuf buf

/-- The struct `Hasher`. `windowSize` and `position` are `uint32`, `hash`
is `uint64`. -/
structure Hasher where
  buf : List Byte
  windowSize : Nat
  position : Nat
  hash : Nat
  deriving DecidableEq, Repr

/-- The result of calling a method on a `*Hasher`: the call returns a value
and leaves the receiver in state `h`; or it panics at run time with the
receiver in state `h` at that moment; or the loop bound of the embedding is
used up (only `BulkRoll` has one, and it is shown never to be reached). -/
inductive Outcome (α : Type) where
  | ret (v : α) (h : Hasher)
  | panic (h : Hasher)
  | outOfFuel (h : Hasher)
  deriving DecidableEq, Repr

/-- The receiver's state when the call ends. -/
def Outcome.state {α : Type} : Outcome α → Hasher
  | .ret _ h => h
  | .panic h => h
  | .outOfFuel h => h

/-- The result of calling a function without a receiver. -/
inductive Exec (α : Type) where
  | ret (v : α)
  | panic
  | outOfFuel
  deriving DecidableEq, Repr

/-- The slice expression `buf[:k]`; it panics (`none`) when `k` exceeds the
length of the slice. -/
def sliceTo (buf : List Byte) (k : Nat) : Option (List Byte) :=
  if k ≤ buf.length then some (buf.take k) else none

/-- The index expression `buf[i]`; it panics (`none`) when `i` is not below
`len(buf)`. -/
def index (buf : List Byte) (i : Nat) : Option Byte := buf.get? i

/-- The constructor `New(buf, windowSize)`, with `windowSize` a `uint32`.
The outer `Option` is `none` on a run-time panic; the pair is the Go return
value `(RollingHash, error)`. -/
def New (buf : List Byte) (windowSize : Nat) :
    Option (Option Hasher × Option GoError) :=
  if windowSize > buf.length % 2 ^ 32 then
    some (none, some .ErrWindowTooLong)
  else
    match sliceTo buf windowSize with
    | none => none
    | some w =>
      some (some { buf := buf, windowSize := windowSize, position := 0,
                   hash := hashBuf w }, none)

/-- One iteration of the loop body of `Roll`: read `out` and `in`, update
`hash`, increment `position` (a `uint32`). `none` is an index-out-of-range
panic, raised before any field is written. -/
def rollStep (h : Hasher) : Option Hasher :=
  match index h.buf h.position with
  | none => none
  | some out =>
    match index h.buf ((h.position + h.windowSize) % 2 ^ 32) with
    | none => none
    | some inb =>
      some { h with
        hash := rotateLeft64 h.hash 1 ^^^
                rotateLeft64 (tableAt out) h.windowSize ^^^ tableAt inb
        position := (h.position + 1) % 2 ^ 32 }

/-- The loop `for i := uint32(0); i < step; i++` of `Roll`, as `cnt`
remaining iterations. -/
def rollLoop : Nat → Hasher → Outcome Unit
  | 0, h => .ret () h
  | cnt + 1, h =>
    match rollStep h with
    | none => .panic h
    | some h1 => rollLoop cnt h1

/-- The method `Roll(step)`, with `step` a `uint32`. The guard adds three
`uint32` values, so the sum is reduced modulo `2^32`. -/
def Roll (h : Hasher) (step : Nat) : Outcome (Nat × Option GoError) :=
  if (h.position + step + h.windowSize) % 2 ^ 32 > h.buf.length % 2 ^ 32 then
    .ret (0, some .ErrIllegalRoll) h
  else
    match rollLoop step h with
    | .panic h1 => .panic h1
    | .outOfFuel h1 => .outOfFuel h1
    | .ret _ h1 => .ret (h1.hash, none) h1

/-- How the inner loop `for i := uint32(0); i < stride; i++` of `bulkRoll`
ends: by `return hashes`, by running all its iterations (leaving `pos` and
`hash`), or by an index-out-of-range panic. -/
inductive InnerExit where
  | returned
  | completed (pos hash : Nat)
  | panic
  deriving DecidableEq, Repr

/-- The inner loop of the portable `bulkRoll`, as `cnt` remaining
iterations; `n` is `uint32(len(buf))`. -/
def bulkInner (buf : List Byte) (n windowSize : Nat) :
    Nat → Nat → Nat → InnerExit
  | 0, pos, hash => .completed pos hash
  | cnt + 1, pos, hash =>
    if (pos + windowSize) % 2 ^ 32 ≥ n then .returned
    else
      match index buf pos with
      | none => .panic
      | some out =>
        match index buf ((pos + windowSize) % 2 ^ 32) with
        | none => .panic
        | some inb =>
          bulkInner buf n windowSize cnt ((pos + 1) % 2 ^ 32)
            (rotateLeft64 hash 1 ^^^
              rotateLeft64 (tableAt out) windowSize ^^^ tableAt inb)

/-- The outer `for` loop of the portable `bulkRoll`. It has no loop
condition in the source, so the embedding bounds its iterations by `fuel`. -/
def bulkOuter (buf : List Byte) (n windowSize stride : Nat) :
    Nat → Nat → Nat → List Nat → Exec (List Nat)
  | 0, _, _, _ => .outOfFuel
  | fuel + 1, pos, hash, hashes =>
    if (pos + windowSize) % 2 ^ 32 > n then .ret hashes
    else
      match bulkInner buf n windowSize stride pos hash with
      | .returned => .ret (hashes ++ [hash])
      | .panic => .panic
      | .completed pos1 hash1 =>
        bulkOuter buf n windowSize stride fuel pos1 hash1 (hashes ++ [hash])

/-- The value `capacity := (n-windowSize-start)/stride + 1` of `bulkRoll`,
in `uint32` arithmetic (for `stride ≠ 0`). -/
def bulkCapacity (n windowSize start stride : Nat) : Nat :=
  (((n + 2 ^ 32 - windowSize) % 2 ^ 32 + 2 ^ 32 - start) % 2 ^ 32 / stride + 1)
    % 2 ^ 32

/-- The portable `bulkRoll` (`bulkroll.go`, build tag `!cgo`). The division
by `stride` panics when `stride` is zero. The outer loop gets `2^32`
iterations of fuel. -/
def bulkRoll (buf : List Byte) (start windowSize stride initialHash : Nat) :
    Exec (List Nat) :=
  let n := buf.length % 2 ^ 32
  if stride = 0 then .panic
  else bulkOuter buf n windowSize stride (2 ^ 32) start initialHash []

/-- The method `BulkRoll(stride)` in the build without cgo, where
`bulkRoll` is the portable function of `bulkroll.go`; `stride` is a `uint32`
and the nil slice is the empty list. It writes no field of the receiver. The
method in the cgo build is `BulkRollCgo`. -/
def BulkRoll (h : Hasher) (stride : Nat) : Outcome (List Nat × Option GoError) :=
  if stride = 0 then .ret ([], some .ErrIllegalStride) h
  else
    match bulkRoll h.buf h.position h.windowSize stride h.hash with
    | .ret hashes => .ret (hashes, none) h
    | .panic => .panic h
    | .outOfFuel => .outOfFuel h

/-- The method `Sum64`. -/
def Sum64 (h : Hasher) : Nat := h.hash

/-- The method `Position`. -/
def Position (h : Hasher) : Nat := h.position

/-- The conversion `byte(x)`. -/
def byteOf (x : Nat) : Byte := ⟨x % 256, Nat.mod_lt x (by decide)⟩

/-- The call `binary.BigEndian.PutUint64(buf[:], v)` on an 8-byte array. -/
def putUint64 (v : Nat) : List Byte :=
  [byteOf (v >>> 56), byteOf (v >>> 48), byteOf (v >>> 40), byteOf (v >>> 32),
   byteOf (v >>> 24), byteOf (v >>> 16), byteOf (v >>> 8), byteOf v]

/-- The method `Sum(b)`. -/
def Sum (h : Hasher) (b : List Byte) : Outcome (List Byte) :=
  .ret (b ++ putUint64 (Sum64 h)) h

/-- The method `Reset`: `position` is written first, then the slice
expression `h.buf[:h.windowSize]` is evaluated and hashed. -/
def Reset (h : Hasher) : Outcome Unit :=
  match sliceTo h.buf h.windowSize with
  | none => .panic { h with position := 0 }
  | some w => .ret () { h with position := 0, hash := hashBuf w }

/-- The method `Size`. -/
def Size (_h : Hasher) : Nat := hashSizeBytes

/-- The method `Write(p)`. -/
def Write (h : Hasher) (_p : List Byte) : Outcome (Nat × Option GoError) :=
  .ret (0, some .ErrNotWritable) h

/-- The method `BlockSize`. -/
def BlockSize (_h : Hasher) : Nat := 1

/-- The slice expression `buf[i:j]` for `i ≤ j ≤ len(buf)`. -/
def slice (buf : List Byte) (i j : Nat) : List Byte := (buf.drop i).take (j - i)

/-- The hashers a caller can obtain from `New(buf, windowSize)` by calling
`Roll`, `BulkRoll`, `Sum`, `Write` and `Reset` in any order, with arguments
of their `uint32` types; a call that ended in a panic leaves the hasher in
the state it had at the panic. -/
inductive Reachable (buf : List Byte) (windowSize : Nat) : Hasher → Prop where
  | new (h : Hasher) (hw : windowSize < 2 ^ 32)
      (hnew : New buf windowSize = some (some h, none)) :
      Reachable buf windowSize h
  | roll (h : Hasher) (step : Nat) (hr : Reachable buf windowSize h)
      (hs : step < 2 ^ 32) : Reachable buf windowSize (Roll h step).state
  | bulkRoll (h : Hasher) (stride : Nat) (hr : Reachable buf windowSize h)
      (hs : stride < 2 ^ 32) : Reachable buf windowSize (BulkRoll h stride).state
  | sum (h : Hasher) (b : List Byte) (hr : Reachable buf windowSize h) :
      Reachable buf windowSize (Sum h b).state
  | write (h : Hasher) (p : List Byte) (hr : Reachable buf windowSize h) :
      Reachable buf windowSize (Write h p).state
  | reset (h : Hasher) (hr : Reachable buf windowSize h) :
      Reachable buf windowSize (Reset h).state

/-- A test driver: call `Roll(step)` `k` times in a row and collect the
returned hashes; `none` as soon as one call returns an error or panics. -/
def rollRepeat (step : Nat) : Nat → Hasher → Option (List Nat × Hasher)
  | 0, h => some ([], h)
  | k + 1, h =>
    match Roll h step with
    | .ret (v, none) h1 =>
      match rollRepeat step k h1 with
      | some (vs, h2) => some (v :: vs, h2)
      | none => none
    | _ => none

/-- The sequence the specification compares `BulkRoll(stride)` with, part
one: on a copy of the cursor call `Roll(stride)` again and again, recording
each returned hash, until `Roll` reports an error. The calls are bounded by
`fuel`. -/
def rollCollect (stride : Nat) : Nat → Hasher → Exec (List Nat)
  | 0, _ => .outOfFuel
  | fuel + 1, h =>
    match Roll h stride with
    | .ret (_, some _) _ => .ret []
    | .ret (v, none) h1 =>
      match rollCollect stride fuel h1 with
      | .ret vs => .ret (v :: vs)
      | .panic => .panic
      | .outOfFuel => .outOfFuel
    | .panic _ => .panic
    | .outOfFuel _ => .outOfFuel

/-- The sequence the specification compares `BulkRoll(stride)` with: the
current hash of the cursor, followed by the hashes `rollCollect` records. -/
def bulkByRoll (h : Hasher) (stride fuel : Nat) : Exec (List Nat) :=
  match rollCollect stride fuel h with
  | .ret vs => .ret (h.hash :: vs)
  | .panic => .panic
  | .outOfFuel => .outOfFuel

/-- A test driver: call `Reset()` `k` times in a row; a panic ends the run. -/
def resetRepeat : Nat → Hasher → Outcome Unit
  | 0, h => .ret () h
  | k + 1, h =>
    match Reset h with
    | .ret _ h1 => resetRepeat k h1
    | .panic h1 => .panic h1
    | .outOfFuel h1 => .outOfFuel h1

/-- The standard-library call `binary.BigEndian.Uint64(b)` that the tests
apply to the digest: `uint64(b[7]) | uint64(b[6])<<8 | ... | uint64(b[0])<<56`;
it panics (`none`) when `b` has fewer than 8 bytes. -/
def beUint64 (b : List Byte) : Option Nat :=
  match b with
  | b0 :: b1 :: b2 :: b3 :: b4 :: b5 :: b6 :: b7 :: _ =>
    some (b7.val ||| (b6.val <<< 8) % 2 ^ 64 ||| (b5.val <<< 16) % 2 ^ 64
      ||| (b4.val <<< 24) % 2 ^ 64 ||| (b3.val <<< 32) % 2 ^ 64
      ||| (b2.val <<< 40) % 2 ^ 64 ||| (b1.val <<< 48) % 2 ^ 64
      ||| (b0.val <<< 56) % 2 ^ 64)
  | _ => none

/-- The formula of the specification for the one-shot hash of a window of
length `n`: the bitwise XOR, over all positions `i` from 0 to `n-1`, of
`rotateLeft(table[window[i]], (n-1-i) mod 64)`. -/
def specHash (p : List Byte) : Nat :=
  ((List.range p.length).map
    (fun i => rotateLeft64 (tableAt (p.getD i 0)) ((p.length - 1 - i) % 64))).foldr
    (fun x acc => x ^^^ acc) 0

/-! ### The cgo build of `bulkRoll` (`bulkroll_cgo.go`)

The C function works on `int` (32 bits, signed) and `uint64_t`. Undefined
behaviour of the C code (signed overflow, a shift count outside `0..63`, a read
outside the buffer, a write outside the output array) is an explicit outcome. -/

/-- The result of the cgo `bulkRoll`: a return, a Go panic, undefined
behaviour inside the C function, or the loop bound of the embedding used up. -/
inductive CgoExec where
  | ret (hashes : List Nat)
  | panic
  | undefined
  | outOfFuel
  deriving DecidableEq, Repr

/-- The conversion `C.int(x)` of a Go unsigned or length value: the low 32
bits, read as a signed number. -/
def cInt (x : Nat) : Int :=
  if x % 2 ^ 32 < 2 ^ 31 then ((x % 2 ^ 32 : Nat) : Int)
  else ((x % 2 ^ 32 : Nat) : Int) - 2 ^ 32

/-- Addition of two C `int`s; `none` on signed overflow. -/
def cAdd (a b : Int) : Option Int :=
  if -(2 ^ 31) ≤ a + b ∧ a + b < 2 ^ 31 then some (a + b) else none

/-- The C read `buf[i]` through the raw pointer; `none` outside the bytes of
the Go slice. -/
def cRead (buf : List Byte) (i : Int) : Option Byte :=
  if 0 ≤ i then index buf i.toNat else none

/-- The C expression `x << window | x >> (64 - window)` on a `uint64_t`;
`none` when a shift count is negative or at least 64. -/
def cRotate (x : Nat) (window : Int) : Option Nat :=
  if 0 ≤ window ∧ window < 64 ∧ 0 ≤ 64 - window ∧ 64 - window < 64 then
    some (((x <<< window.toNat) % 2 ^ 64) ||| (x >>> (64 - window).toNat))
  else none

/-- How the inner `for (int i = 0; i < stride; i++)` loop of `buz_bulk_roll`
ends. -/
inductive CInnerExit where
  | returned
  | completed (pos : Int) (hash : Nat)
  | undefined
  deriving DecidableEq, Repr

/-- The inner loop of `buz_bulk_roll`, as `cnt` remaining iterations. -/
def cInner (buf : List Byte) (len window : Int) : Nat → Int → Nat → CInnerExit
  | 0, pos, hash => .completed pos hash
  | cnt + 1, pos, hash =>
    match cAdd pos window with
    | none => .undefined
    | some pw =>
      if pw ≥ len then .returned
      else
        match cRead buf pos with
        | none => .undefined
        | some out =>
          match cRead buf pw with
          | none => .undefined
          | some inb =>
            match cRotate (tableAt out) window with
            | none => .undefined
            | some rot =>
              match cAdd pos 1 with
              | none => .undefined
              | some pos1 =>
                cInner buf len window cnt pos1
                  ((((hash <<< 1) % 2 ^ 64) ||| (hash >>> 63)) ^^^ rot ^^^ tableAt inb)

/-- The `while (pos + window <= len)` loop of `buz_bulk_roll`, bounded by
`fuel`; `out` is the output array and `count` the next index written. A
non-positive `stride` gives the inner loop no iterations. -/
def cOuter (buf : List Byte) (len window stride : Int) :
    Nat → Int → Nat → Int → List Nat → CgoExec
  | 0, _, _, _, _ => .outOfFuel
  | fuel + 1, pos, hash, count, out =>
    match cAdd pos window with
    | none => .undefined
    | some pw =>
      if pw ≤ len then
        if 0 ≤ count ∧ count.toNat < out.length then
          match cAdd count 1 with
          | none => .undefined
          | some count1 =>
            match cInner buf len window stride.toNat pos hash with
            | .returned => .ret (out.set count.toNat hash)
            | .undefined => .undefined
            | .completed pos1 hash1 =>
              cOuter buf len window stride fuel pos1 hash1 count1 (out.set count.toNat hash)
        else .undefined
      else .ret out

/-- The cgo `bulkRoll` (`bulkroll_cgo.go`, build tag `cgo`): the guard
returns the nil slice; `&buf[0]` and `&hashes[0]` panic on an empty slice;
the C function fills `hashes`, which has `capacity` zero entries. -/
def bulkRollCgo (buf : List Byte) (start windowSize stride initialHash : Nat) : CgoExec :=
  let n := buf.length % 2 ^ 32
  if stride = 0 ∨ windowSize = 0 ∨ (start + windowSize) % 2 ^ 32 > n then .ret []
  else
    if buf.length = 0 then .panic
    else if bulkCapacity n windowSize start stride = 0 then .panic
    else
      cOuter buf (cInt buf.length) (cInt windowSize) (cInt stride) (2 ^ 32) (cInt start)
        initialHash 0 (List.replicate (bulkCapacity n windowSize start stride) 0)

/-- The portable outcome that corresponds to an outcome of the C inner loop. -/
def InnerExit.toC : InnerExit → CInnerExit
  | .returned => .returned
  | .completed pos hash => .completed (pos : Int) hash
  | .panic => .undefined

/-- The result of calling a method on a `*Hasher` in the cgo build: as
`Outcome`, with one more case for undefined behaviour inside the C code, after
which nothing is known about the process. -/
inductive CgoOutcome (α : Type) where
  | ret (v : α) (h : Hasher)
  | panic (h : Hasher)
  | undefined
  | outOfFuel (h : Hasher)
  deriving DecidableEq, Repr

/-- The method `BulkRoll(stride)` in the cgo build, where `bulkRoll` is the
function of `bulkroll_cgo.go`. -/
def BulkRollCgo (h : Hasher) (stride : Nat) : CgoOutcome (List Nat × Option GoError) :=
  if stride = 0 then .ret ([], some .ErrIllegalStride) h
  else
    match bulkRollCgo h.buf h.position h.windowSize stride h.hash with
    | .ret hashes => .ret (hashes, none) h
    | .panic => .panic h
    | .undefined => .undefined
    | .outOfFuel => .outOfFuel h

/-! ## Bit-level facts about `rotateLeft64` and the table -/

theorem testBit_ge_64 {x i : Nat} (hx : x < 2 ^ 64) (hi : 64 ≤ i) : x.testBit i = false :=
  Nat.testBit_lt_two_pow (Nat.lt_of_lt_of_le hx (Nat.pow_le_pow_right (by decide) hi))

theorem testBit_rotateLeft64 {x : Nat} (hx : x < 2 ^ 64) (k i : Nat) :
    (rotateLeft64 x k).testBit i
      = (decide (i < 64) && x.testBit ((i + 64 - k % 64) % 64)) := by
  have hs : k % 64 < 64 := Nat.mod_lt _ (by decide)
  simp only [rotateLeft64, Nat.testBit_or, Nat.testBit_mod_two_pow, Nat.testBit_shiftLeft,
    Nat.testBit_shiftRight]
  by_cases hi : i < 64
  · by_cases hsi : k % 64 ≤ i
    · have h1 : (i + 64 - k % 64) % 64 = i - k % 64 := by omega
      have h2 : x.testBit (64 - k % 64 + i) = false := testBit_ge_64 hx (by omega)
      simp [hi, hsi, h1, h2]
    · have h1 : (i + 64 - k % 64) % 64 = 64 - k % 64 + i := by omega
      simp [hi, hsi, h1]
  · have h2 : x.testBit (64 - k % 64 + i) = false := testBit_ge_64 hx (by omega)
    simp [hi, h2]

theorem rotateLeft64_lt {x : Nat} (hx : x < 2 ^ 64) (k : Nat) : rotateLeft64 x k < 2 ^ 64 := by
  apply Nat.lt_pow_two_of_testBit
  intro i hi
  rw [testBit_rotateLeft64 hx]
  have : ¬ i < 64 := by omega
  simp [this]

theorem rotateLeft64_xor {x y : Nat} (hx : x < 2 ^ 64) (hy : y < 2 ^ 64) (k : Nat) :
    rotateLeft64 (x ^^^ y) k = rotateLeft64 x k ^^^ rotateLeft64 y k := by
  apply Nat.eq_of_testBit_eq
  intro i
  rw [testBit_rotateLeft64 (Nat.xor_lt_two_pow hx hy), Nat.testBit_xor, Nat.testBit_xor,
    testBit_rotateLeft64 hx, testBit_rotateLeft64 hy]
  by_cases hi : i < 64 <;> simp [hi]

theorem rotateLeft64_rotateLeft64 {x : Nat} (hx : x < 2 ^ 64) (j k : Nat) :
    rotateLeft64 (rotateLeft64 x j) k = rotateLeft64 x (j + k) := by
  apply Nat.eq_of_testBit_eq
  intro i
  rw [testBit_rotateLeft64 (rotateLeft64_lt hx j), testBit_rotateLeft64 hx,
    testBit_rotateLeft64 hx]
  have h1 : (i + 64 - k % 64) % 64 < 64 := Nat.mod_lt _ (by decide)
  have h2 : ((i + 64 - k % 64) % 64 + 64 - j % 64) % 64 = (i + 64 - (j + k) % 64) % 64 := by
    omega
  simp [h1, h2]

theorem rotateLeft64_zero_right {x : Nat} (hx : x < 2 ^ 64) : rotateLeft64 x 0 = x := by
  apply Nat.eq_of_testBit_eq
  intro i
  rw [testBit_rotateLeft64 hx]
  by_cases hi : i < 64
  · have : (i + 64 - 0 % 64) % 64 = i := by omega
    rw [this]
    simp [hi]
  · have := testBit_ge_64 hx (Nat.le_of_not_lt hi)
    simp [hi, this]

theorem rotateLeft64_zero_left (k : Nat) : rotateLeft64 0 k = 0 := by
  simp [rotateLeft64]

set_option maxRecDepth 100000 in
theorem table_all_lt : table.all (fun x => decide (x < 2 ^ 64)) = true := by rfl

theorem table_lt : ∀ x ∈ table, x < 2 ^ 64 := by
  intro x hx
  have h := List.all_eq_true.mp table_all_lt x hx
  exact of_decide_eq_true h

set_option maxRecDepth 100000 in
theorem table_length : table.length = 256 := by rfl

theorem tableAt_lt (b : Byte) : tableAt b < 2 ^ 64 := by
  have hb : b.val < table.length := by rw [table_length]; exact b.isLt
  unfold tableAt
  rw [List.getD_eq_getElem _ _ hb]
  exact table_lt _ (List.getElem_mem hb)

/-! ## The one-shot hash, structurally -/

theorem hashBuf_nil : hashBuf [] = 0 := by rfl

theorem foldl_xor_lt (f : Nat → Nat) (hf : ∀ i, f i < 2 ^ 64) (l : List Nat) (a : Nat)
    (ha : a < 2 ^ 64) : l.foldl (fun h i => h ^^^ f i) a < 2 ^ 64 := by
  induction l generalizing a with
  | nil => simpa using ha
  | cons i l ih => exact ih _ (Nat.xor_lt_two_pow ha (hf i))

theorem hashBuf_lt (p : List Byte) : hashBuf p < 2 ^ 64 := by
  unfold hashBuf
  exact foldl_xor_lt _ (fun i => rotateLeft64_lt (tableAt_lt _) _) _ _ (by decide)

/-- Rotating the accumulator by one bit re-rotates every folded term. -/
theorem foldl_rotate (p q : List Byte) (n : Nat) (l : List Nat)
    (hl : ∀ i ∈ l, i < n ∧ q.getD i 0 = p.getD i 0) (a : Nat) (ha : a < 2 ^ 64) :
    l.foldl (fun h i => h ^^^ rotateLeft64 (tableAt (q.getD i 0)) (n + 1 - 1 - i))
        (rotateLeft64 a 1)
      = rotateLeft64
          (l.foldl (fun h i => h ^^^ rotateLeft64 (tableAt (p.getD i 0)) (n - 1 - i)) a) 1 := by
  induction l generalizing a with
  | nil => rfl
  | cons i l ih =>
    have hi := hl i (List.mem_cons_self _ _)
    have hrot : n + 1 - 1 - i = (n - 1 - i) + 1 := by omega
    simp only [List.foldl_cons]
    rw [← ih (fun j hj => hl j (List.mem_cons_of_mem _ hj)) _
      (Nat.xor_lt_two_pow ha (rotateLeft64_lt (tableAt_lt _) _)),
      rotateLeft64_xor ha (rotateLeft64_lt (tableAt_lt _) _),
      rotateLeft64_rotateLeft64 (tableAt_lt _), hi.2, hrot]

theorem hashBuf_append_singleton (xs : List Byte) (c : Byte) :
    hashBuf (xs ++ [c]) = rotateLeft64 (hashBuf xs) 1 ^^^ tableAt c := by
  have h := foldl_rotate xs (xs ++ [c]) xs.length (List.range xs.length)
    (fun i hi => by
      have hi2 : i < xs.length := List.mem_range.mp hi
      refine ⟨hi2, ?_⟩
      rw [List.getD_eq_getElem _ _ hi2, List.getD_eq_getElem _ _ (by simp; omega)]
      exact List.getElem_append_left hi2) 0 (by decide)
  rw [rotateLeft64_zero_left] at h
  unfold hashBuf
  simp only [List.length_append, List.length_singleton, List.range_succ, List.foldl_append,
    List.foldl_cons, List.foldl_nil]
  rw [h]
  have hc : (xs ++ [c]).getD xs.length 0 = c := by
    rw [List.getD_eq_getElem _ _ (by simp)]
    simp
  have hr : xs.length + 1 - 1 - xs.length = 0 := by omega
  rw [hc, hr, rotateLeft64_zero_right (tableAt_lt c)]

theorem hashBuf_cons (b : Byte) (xs : List Byte) :
    hashBuf (b :: xs) = rotateLeft64 (tableAt b) xs.length ^^^ hashBuf xs := by
  induction xs using List.reverseRecOn with
  | nil =>
    have h := hashBuf_append_singleton [] b
    simp only [List.nil_append] at h
    rw [h, hashBuf_nil, rotateLeft64_zero_left, List.length_nil,
      rotateLeft64_zero_right (tableAt_lt b)]
    simp
  | append_singleton ys c ih =>
    rw [← List.cons_append, hashBuf_append_singleton, ih, hashBuf_append_singleton,
      rotateLeft64_xor (rotateLeft64_lt (tableAt_lt b) _) (hashBuf_lt ys),
      rotateLeft64_rotateLeft64 (tableAt_lt b), Nat.xor_assoc]
    simp

/-! ## One rolling step keeps the hash equal to the one-shot hash -/

theorem slice_window (buf : List Byte) (p w : Nat) :
    slice buf p (p + w) = (buf.drop p).take w := by
  simp [slice]

theorem window_step (buf : List Byte) (p w : Nat) (h : p + w < buf.length) :
    ∃ out inb, index buf p = some out ∧ index buf (p + w) = some inb ∧
      rotateLeft64 (Hash (slice buf p (p + w))) 1 ^^^ rotateLeft64 (tableAt out) w
          ^^^ tableAt inb
        = Hash (slice buf (p + 1) (p + 1 + w)) := by
  have hp : p < buf.length := by omega
  refine ⟨buf[p], buf[p + w], ?_, ?_, ?_⟩
  · simp [index, List.get?_eq_getElem?, List.getElem?_eq_getElem hp]
  · simp [index, List.get?_eq_getElem?, List.getElem?_eq_getElem h]
  · rw [slice_window, slice_window]
    unfold Hash
    have hdrop : buf.drop p = buf[p] :: buf.drop (p + 1) := List.drop_eq_getElem_cons hp
    have hX1 : (buf.drop p).take (w + 1) = buf[p] :: (buf.drop (p + 1)).take w := by
      rw [hdrop, List.take_succ_cons]
    have hw : w < (buf.drop p).length := by simp; omega
    have hX2 : (buf.drop p).take (w + 1) = (buf.drop p).take w ++ [buf[p + w]] := by
      rw [List.take_succ, List.getElem?_eq_getElem hw]
      simp
    have hlen : ((buf.drop (p + 1)).take w).length = w := by simp; omega
    have key : rotateLeft64 (hashBuf ((buf.drop p).take w)) 1 ^^^ tableAt buf[p + w]
        = rotateLeft64 (tableAt buf[p]) w ^^^ hashBuf ((buf.drop (p + 1)).take w) := by
      rw [← hashBuf_append_singleton, ← hX2, hX1, hashBuf_cons, hlen]
    rw [Nat.xor_assoc, Nat.xor_comm (rotateLeft64 (tableAt buf[p]) w), ← Nat.xor_assoc, key,
      Nat.xor_comm (rotateLeft64 (tableAt buf[p]) w), Nat.xor_assoc, Nat.xor_self,
      Nat.xor_zero]

theorem rollStep_ok (buf : List Byte) (w p : Nat) (hlen : buf.length < 2 ^ 32)
    (h : p + w < buf.length) :
    rollStep ⟨buf, w, p, Hash (slice buf p (p + w))⟩
      = some ⟨buf, w, p + 1, Hash (slice buf (p + 1) (p + 1 + w))⟩ := by
  obtain ⟨out, inb, h1, h2, h3⟩ := window_step buf p w h
  have m1 : (p + w) % 2 ^ 32 = p + w := Nat.mod_eq_of_lt (by omega)
  have m2 : (p + 1) % 2 ^ 32 = p + 1 := Nat.mod_eq_of_lt (by omega)
  simp only [rollStep, h1, m1, h2, m2, h3]

theorem rollLoop_ok (buf : List Byte) (w : Nat) (hlen : buf.length < 2 ^ 32) :
    ∀ cnt p, p + cnt + w ≤ buf.length →
      rollLoop cnt ⟨buf, w, p, Hash (slice buf p (p + w))⟩
        = .ret () ⟨buf, w, p + cnt, Hash (slice buf (p + cnt) (p + cnt + w))⟩ := by
  intro cnt
  induction cnt with
  | zero => intro p _; rfl
  | succ cnt ih =>
    intro p hp
    have hs := rollStep_ok buf w p hlen (by omega)
    have h2 := ih (p + 1) (by omega)
    have e : p + 1 + cnt = p + (cnt + 1) := by omega
    rw [e] at h2
    simp only [rollLoop, hs, h2]

theorem Roll_ok (buf : List Byte) (w p step : Nat) (hlen : buf.length < 2 ^ 32)
    (h : p + step + w ≤ buf.length) :
    Roll ⟨buf, w, p, Hash (slice buf p (p + w))⟩ step
      = .ret (Hash (slice buf (p + step) (p + step + w)), none)
          ⟨buf, w, p + step, Hash (slice buf (p + step) (p + step + w))⟩ := by
  have m1 : (p + step + w) % 2 ^ 32 = p + step + w := Nat.mod_eq_of_lt (by omega)
  have m2 : buf.length % 2 ^ 32 = buf.length := Nat.mod_eq_of_lt hlen
  have hc : ¬ (p + step + w > buf.length) := by omega
  simp only [Roll, m1, m2, hc, if_false, rollLoop_ok buf w hlen step p h]

/-! ## Construction and repeated rolling -/

theorem New_ok (buf : List Byte) (w : Nat) (hlen : buf.length < 2 ^ 32)
    (hw : w ≤ buf.length) :
    New buf w = some (some ⟨buf, w, 0, Hash (slice buf 0 w)⟩, none) := by
  have m : buf.length % 2 ^ 32 = buf.length := Nat.mod_eq_of_lt hlen
  have hc : ¬ (w > buf.length) := by omega
  unfold New
  rw [m, if_neg hc]
  simp [sliceTo, hw, slice, Hash]

theorem rollRepeat_one_ok (buf : List Byte) (w : Nat) (hlen : buf.length < 2 ^ 32) :
    ∀ k p, p + k + w ≤ buf.length →
      rollRepeat 1 k ⟨buf, w, p, Hash (slice buf p (p + w))⟩
        = some ((List.range k).map (fun j => Hash (slice buf (p + j + 1) (p + j + 1 + w))),
            ⟨buf, w, p + k, Hash (slice buf (p + k) (p + k + w))⟩) := by
  intro k
  induction k with
  | zero => intro p _; rfl
  | succ k ih =>
    intro p hp
    have h1 := Roll_ok buf w p 1 hlen (by omega)
    have h2 := ih (p + 1) (by omega)
    have e : p + 1 + k = p + (k + 1) := by omega
    rw [e] at h2
    simp only [rollRepeat, h1, h2, List.range_succ_eq_map, List.map_cons, List.map_map]
    congr 2
    congr 1
    apply List.map_congr_left
    intro j _
    simp only [Function.comp]
    have e2 : p + 1 + j = p + (j + 1) := by omega
    rw [e2]

/-- C1 (amended): for every buffer shorter than `2^32` bytes, every
`windowSize ≤ len(buf)` and every `i` with `i + windowSize ≤ len(buf)`,
`New(buf, windowSize)` succeeds, its `Sum64()` is `Hash(buf[0:windowSize])`,
each of `i` successive `Roll(1)` calls succeeds, the `j`-th of them (from 0)
returns `Hash(buf[j+1 : j+1+windowSize])`, and afterwards `Position()` is `i`
and `Sum64()` is `Hash(buf[i : i+windowSize])`. -/
theorem equivalence_law (buf : List Byte) (windowSize i : Nat)
    (hlen : buf.length < 2 ^ 32) (hw : windowSize ≤ buf.length)
    (hi : i + windowSize ≤ buf.length) :
    ∃ h0 hi, New buf windowSize = some (some h0, none) ∧
      Sum64 h0 = Hash (slice buf 0 windowSize) ∧
      rollRepeat 1 i h0
        = some ((List.range i).map
            (fun j => Hash (slice buf (j + 1) (j + 1 + windowSize))), hi) ∧
      Position hi = i ∧ Sum64 hi = Hash (slice buf i (i + windowSize)) := by
  have hr := rollRepeat_one_ok buf windowSize hlen i 0 (by omega)
  simp only [Nat.zero_add] at hr
  exact ⟨_, _, New_ok buf windowSize hlen hw, rfl, hr, rfl, rfl⟩

/-- C1, witness: the buffer "abcdefghijk" with window 4, rolled 7 times. -/
theorem equivalence_law_witness :
    ([97, 98, 99, 100, 101, 102, 103, 104, 105, 106, 107] : List Byte).length < 2 ^ 32 ∧
    4 ≤ ([97, 98, 99, 100, 101, 102, 103, 104, 105, 106, 107] : List Byte).length ∧
    7 + 4 ≤ ([97, 98, 99, 100, 101, 102, 103, 104, 105, 106, 107] : List Byte).length ∧
    ∃ h0 hi, New [97, 98, 99, 100, 101, 102, 103, 104, 105, 106, 107] 4
        = some (some h0, none) ∧
      Sum64 h0 = Hash (slice [97, 98, 99, 100, 101, 102, 103, 104, 105, 106, 107] 0 4) ∧
      rollRepeat 1 7 h0
        = some ((List.range 7).map
            (fun j => Hash (slice [97, 98, 99, 100, 101, 102, 103, 104, 105, 106, 107]
              (j + 1) (j + 1 + 4))), hi) ∧
      Position hi = 7 ∧
      Sum64 hi = Hash (slice [97, 98, 99, 100, 101, 102, 103, 104, 105, 106, 107] 7 (7 + 4)) :=
  ⟨by decide, by decide, by decide,
    equivalence_law [97, 98, 99, 100, 101, 102, 103, 104, 105, 106, 107] 4 7
      (by decide) (by decide) (by decide)⟩

/-- On a buffer of exactly `2^32` bytes `uint32(len(buf))` is 0, so `New`
rejects window 1. -/
theorem New_long_buffer (b : List Byte) (hb : b.length = 2 ^ 32) :
    1 ≤ b.length ∧ 0 + 1 ≤ b.length ∧ New b 1 = some (none, some .ErrWindowTooLong) := by
  refine ⟨by omega, by omega, ?_⟩
  unfold New
  rw [hb, Nat.mod_self, if_pos (by decide)]

/-- C1, counterexample to the claim as stated: a buffer of `2^32` zero bytes
and `windowSize = 1` satisfy `windowSize ≤ len(buf)` and `0 + windowSize ≤
len(buf)`, yet `New` returns `ErrWindowTooLong`, because `uint32(len(buf))`
is 0. -/
theorem equivalence_law_fails_on_long_buffer :
    1 ≤ (List.replicate (2 ^ 32) (0 : Byte)).length ∧
    0 + 1 ≤ (List.replicate (2 ^ 32) (0 : Byte)).length ∧
    New (List.replicate (2 ^ 32) (0 : Byte)) 1 = some (none, some .ErrWindowTooLong) :=
  New_long_buffer _ (List.length_replicate _ _)

/-- C2 (amended): for every hasher over a buffer shorter than `2^32` bytes
whose hash equals `Hash(buf[p : p+windowSize])` at its position `p`, and every
`step` with `p + step + windowSize ≤ len(buf)`, `Roll(step)` returns
`Hash(buf[p+step : p+step+windowSize])` and no error; afterwards `Position()`
is `p + step`, `Sum64()` is the returned value, and the buffer and the window
size are unchanged. -/
theorem roll_multi_step (h : Hasher) (step : Nat) (hlen : h.buf.length < 2 ^ 32)
    (hh : h.hash = Hash (slice h.buf h.position (h.position + h.windowSize)))
    (hs : h.position + step + h.windowSize ≤ h.buf.length) :
    ∃ h1, Roll h step
        = .ret (Hash (slice h.buf (h.position + step)
            (h.position + step + h.windowSize)), none) h1 ∧
      Position h1 = h.position + step ∧
      Sum64 h1 = Hash (slice h.buf (h.position + step)
        (h.position + step + h.windowSize)) ∧
      h1.buf = h.buf ∧ h1.windowSize = h.windowSize := by
  obtain ⟨buf, w, p, hash⟩ := h
  simp only at hlen hh hs ⊢
  subst hh
  exact ⟨_, Roll_ok buf w p step hlen hs, rfl, rfl, rfl, rfl⟩

/-- C2, witness: the hasher over "abcdefghijk" with window 3 at position 2,
rolled by 5. -/
theorem roll_multi_step_witness :
    Hash [99, 100, 101]
      = Hash (slice [97, 98, 99, 100, 101, 102, 103, 104, 105, 106, 107] 2 (2 + 3)) ∧
    2 + 5 + 3 ≤ ([97, 98, 99, 100, 101, 102, 103, 104, 105, 106, 107] : List Byte).length ∧
    ∃ h1, Roll ⟨[97, 98, 99, 100, 101, 102, 103, 104, 105, 106, 107], 3, 2,
          Hash [99, 100, 101]⟩ 5
        = .ret (Hash (slice [97, 98, 99, 100, 101, 102, 103, 104, 105, 106, 107] (2 + 5)
            (2 + 5 + 3)), none) h1 ∧
      Position h1 = 2 + 5 ∧
      Sum64 h1 = Hash (slice [97, 98, 99, 100, 101, 102, 103, 104, 105, 106, 107] (2 + 5)
        (2 + 5 + 3)) ∧
      h1.buf = [97, 98, 99, 100, 101, 102, 103, 104, 105, 106, 107] ∧ h1.windowSize = 3 :=
  ⟨by decide, by decide,
    roll_multi_step ⟨[97, 98, 99, 100, 101, 102, 103, 104, 105, 106, 107], 3, 2,
      Hash [99, 100, 101]⟩ 5 (by decide) (by decide) (by decide)⟩

/-- On a buffer of exactly `2^32` bytes, `New` accepts window 0 and the
first `Roll(1)` is refused. -/
theorem Roll_long_buffer (b : List Byte) (hb : b.length = 2 ^ 32) :
    New b 0 = some (some ⟨b, 0, 0, 0⟩, none) ∧
    (0 : Nat) = Hash (slice b 0 (0 + 0)) ∧
    0 + 1 + 0 ≤ b.length ∧
    Roll ⟨b, 0, 0, 0⟩ 1 = .ret (0, some .ErrIllegalRoll) ⟨b, 0, 0, 0⟩ := by
  refine ⟨?_, ?_, by omega, ?_⟩
  · unfold New sliceTo
    rw [hb, Nat.mod_self, if_neg (by decide), if_pos (Nat.zero_le _), List.take_zero]
    simp only [hashBuf_nil]
  · unfold slice Hash
    rw [Nat.sub_self, List.take_zero, hashBuf_nil]
  · unfold Roll
    simp only [hb]
    rfl

/-- C2, counterexample to the claim as stated: the hasher that `New` returns
for a buffer of `2^32` zero bytes and window 0 has hash `Hash(buf[0:0])` at
position 0, and `0 + 1 + 0 ≤ len(buf)`, yet `Roll(1)` returns
`ErrIllegalRoll`. -/
theorem roll_multi_step_fails_on_long_buffer :
    New (List.replicate (2 ^ 32) (0 : Byte)) 0
      = some (some ⟨List.replicate (2 ^ 32) 0, 0, 0, 0⟩, none) ∧
    (0 : Nat) = Hash (slice (List.replicate (2 ^ 32) (0 : Byte)) 0 (0 + 0)) ∧
    0 + 1 + 0 ≤ (List.replicate (2 ^ 32) (0 : Byte)).length ∧
    Roll ⟨List.replicate (2 ^ 32) 0, 0, 0, 0⟩ 1
      = .ret (0, some .ErrIllegalRoll) ⟨List.replicate (2 ^ 32) 0, 0, 0, 0⟩ :=
  Roll_long_buffer _ (List.length_replicate _ _)

/-! ## The guard of `Roll` wraps around -/

/-- C3, the code at the failing input: on the hasher `New("a", 1)` returns,
`position + step + windowSize = 2^32 > len(buf)` for `step = 2^32 - 1`, yet
`Roll(step)` does not return `ErrIllegalRoll`: the `uint32` sum wraps to 0,
the guard passes, and the first loop iteration panics on `buf[1]`. -/
theorem roll_guard_wraps :
    New [97] 1 = some (some ⟨[97], 1, 0, Hash [97]⟩, none) ∧
    0 + 4294967295 + 1 > ([97] : List Byte).length ∧
    Roll ⟨[97], 1, 0, Hash [97]⟩ 4294967295 = .panic ⟨[97], 1, 0, Hash [97]⟩ := by
  decide

/-- C4, the code at the failing input: on the hasher `New("abc", 1)` returns,
`position + step + windowSize = 2^32 > len(buf)` for `step = 2^32 - 1`, and
`Roll(step)` advances the cursor to position 2 (hash `Hash("c")`) before it
panics on `buf[3]`: the failed call leaves a partial advance behind. -/
theorem roll_wrapped_guard_partial_advance :
    New [97, 98, 99] 1 = some (some ⟨[97, 98, 99], 1, 0, Hash [97]⟩, none) ∧
    0 + 4294967295 + 1 > ([97, 98, 99] : List Byte).length ∧
    Roll ⟨[97, 98, 99], 1, 0, Hash [97]⟩ 4294967295
      = .panic ⟨[97, 98, 99], 1, 2, Hash [99]⟩ ∧
    Position (Roll ⟨[97, 98, 99], 1, 0, Hash [97]⟩ 4294967295).state ≠ 0 ∧
    Sum64 (Roll ⟨[97, 98, 99], 1, 0, Hash [97]⟩ 4294967295).state ≠ Hash [97] := by
  decide

/-- C6, the code at the failing input: on the hasher `New("abc", 1)` returns,
`BulkRoll(2^32 - 1)` returns the one hash `Hash("a")`, while the sequence
built from `Roll(2^32 - 1)` calls is never completed: the first `Roll` call
passes its wrapped guard and panics instead of reporting `ErrIllegalRoll`. -/
theorem bulk_roll_disagrees_on_wrapped_stride :
    New [97, 98, 99] 1 = some (some ⟨[97, 98, 99], 1, 0, Hash [97]⟩, none) ∧
    BulkRoll ⟨[97, 98, 99], 1, 0, Hash [97]⟩ 4294967295
      = .ret ([Hash [97]], none) ⟨[97, 98, 99], 1, 0, Hash [97]⟩ ∧
    ∀ fuel, bulkByRoll ⟨[97, 98, 99], 1, 0, Hash [97]⟩ 4294967295 (fuel + 1) = .panic := by
  refine ⟨by decide, by decide, ?_⟩
  intro fuel
  have hr : Roll ⟨[97, 98, 99], 1, 0, Hash [97]⟩ 4294967295
      = .panic ⟨[97, 98, 99], 1, 2, Hash [99]⟩ := by decide
  simp only [bulkByRoll, rollCollect, hr]

/-! ## What every reachable hasher satisfies -/

theorem index_eq_some_lt {buf : List Byte} {i : Nat} {b : Byte} (h : index buf i = some b) :
    i < buf.length := by
  unfold index at h
  rw [List.get?_eq_getElem?] at h
  exact (List.getElem?_eq_some.mp h).1

theorem BulkRoll_state (h : Hasher) (stride : Nat) : (BulkRoll h stride).state = h := by
  unfold BulkRoll
  split
  · rfl
  · split <;> rfl

theorem rollStep_inv (buf : List Byte) (w : Nat) (h h1 : Hasher)
    (hi : h.buf = buf ∧ h.windowSize = w ∧ w ≤ buf.length % 2 ^ 32 ∧ h.position < 2 ^ 32 ∧
      (buf.length < 2 ^ 32 → h.position + w ≤ buf.length ∧
        h.hash = Hash (slice buf h.position (h.position + w))))
    (hs : rollStep h = some h1) :
    h1.buf = buf ∧ h1.windowSize = w ∧ w ≤ buf.length % 2 ^ 32 ∧ h1.position < 2 ^ 32 ∧
      (buf.length < 2 ^ 32 → h1.position + w ≤ buf.length ∧
        h1.hash = Hash (slice buf h1.position (h1.position + w))) := by
  obtain ⟨b, w0, p, hash⟩ := h
  obtain ⟨hb, hw0, hw, hp, hlen⟩ := hi
  simp only at hb hw0 hp hlen
  subst hb hw0
  have hs0 := hs
  unfold rollStep at hs
  simp only at hs
  cases h1i : index b p with
  | none => rw [h1i] at hs; exact absurd hs (by simp)
  | some out =>
    cases h2i : index b ((p + w0) % 2 ^ 32) with
    | none => rw [h1i] at hs; simp only [h2i] at hs; exact absurd hs (by simp)
    | some inb =>
      have hlt := index_eq_some_lt h2i
      by_cases hl : b.length < 2 ^ 32
      · obtain ⟨hpw, hh⟩ := hlen hl
        have m1 : (p + w0) % 2 ^ 32 = p + w0 := Nat.mod_eq_of_lt (by omega)
        rw [m1] at hlt
        subst hh
        rw [rollStep_ok b w0 p hl hlt] at hs0
        cases hs0
        exact ⟨rfl, rfl, hw, by simp only; omega, fun _ => ⟨by simp only; omega, rfl⟩⟩
      · rw [h1i] at hs
        simp only [h2i] at hs
        cases hs
        refine ⟨rfl, rfl, hw, Nat.mod_lt _ (by decide), fun h => absurd h hl⟩

theorem rollLoop_inv (buf : List Byte) (w : Nat) : ∀ (cnt : Nat) (h : Hasher),
    (h.buf = buf ∧ h.windowSize = w ∧ w ≤ buf.length % 2 ^ 32 ∧ h.position < 2 ^ 32 ∧
      (buf.length < 2 ^ 32 → h.position + w ≤ buf.length ∧
        h.hash = Hash (slice buf h.position (h.position + w)))) →
    ((rollLoop cnt h).state.buf = buf ∧ (rollLoop cnt h).state.windowSize = w ∧
      w ≤ buf.length % 2 ^ 32 ∧ (rollLoop cnt h).state.position < 2 ^ 32 ∧
      (buf.length < 2 ^ 32 → (rollLoop cnt h).state.position + w ≤ buf.length ∧
        (rollLoop cnt h).state.hash
          = Hash (slice buf (rollLoop cnt h).state.position
              ((rollLoop cnt h).state.position + w)))) ∧
    (rollLoop cnt h = .ret () (rollLoop cnt h).state ∨
      rollLoop cnt h = .panic (rollLoop cnt h).state) := by
  intro cnt
  induction cnt with
  | zero => intro h hi; exact ⟨hi, Or.inl rfl⟩
  | succ cnt ih =>
    intro h hi
    cases hs : rollStep h with
    | none =>
      have e : rollLoop (cnt + 1) h = .panic h := by simp only [rollLoop, hs]
      rw [e]
      exact ⟨hi, Or.inr rfl⟩
    | some h1 =>
      have e : rollLoop (cnt + 1) h = rollLoop cnt h1 := by simp only [rollLoop, hs]
      rw [e]
      exact ih h1 (rollStep_inv buf w h h1 hi hs)

theorem Roll_inv (buf : List Byte) (w : Nat) (h : Hasher) (step : Nat)
    (hi : h.buf = buf ∧ h.windowSize = w ∧ w ≤ buf.length % 2 ^ 32 ∧ h.position < 2 ^ 32 ∧
      (buf.length < 2 ^ 32 → h.position + w ≤ buf.length ∧
        h.hash = Hash (slice buf h.position (h.position + w)))) :
    (Roll h step).state.buf = buf ∧ (Roll h step).state.windowSize = w ∧
      w ≤ buf.length % 2 ^ 32 ∧ (Roll h step).state.position < 2 ^ 32 ∧
      (buf.length < 2 ^ 32 → (Roll h step).state.position + w ≤ buf.length ∧
        (Roll h step).state.hash
          = Hash (slice buf (Roll h step).state.position
              ((Roll h step).state.position + w))) := by
  unfold Roll
  split
  · exact hi
  · obtain ⟨hinv, hres⟩ := rollLoop_inv buf w step h hi
    rcases hres with hr | hr
    · rw [hr]; exact hinv
    · rw [hr]; exact hinv

theorem New_some (buf : List Byte) (w : Nat) (h : Hasher)
    (hnew : New buf w = some (some h, none)) :
    w ≤ buf.length % 2 ^ 32 ∧ h = ⟨buf, w, 0, Hash (slice buf 0 w)⟩ := by
  unfold New at hnew
  split at hnew
  · cases hnew
  · rename_i hc
    have hw : w ≤ buf.length % 2 ^ 32 := by omega
    have hle : w ≤ buf.length := Nat.le_trans hw (Nat.mod_le _ _)
    simp only [sliceTo, hle, if_true] at hnew
    cases hnew
    exact ⟨hw, by simp [slice, Hash]⟩

theorem Reset_inv_ret (h : Hasher) (hw : h.windowSize ≤ h.buf.length % 2 ^ 32) :
    Reset h = .ret () ⟨h.buf, h.windowSize, 0, Hash (slice h.buf 0 h.windowSize)⟩ := by
  have hle : h.windowSize ≤ h.buf.length := Nat.le_trans hw (Nat.mod_le _ _)
  simp [Reset, sliceTo, hle, slice, Hash]

theorem reachable_inv (buf : List Byte) (w : Nat) (h : Hasher) (hr : Reachable buf w h) :
    h.buf = buf ∧ h.windowSize = w ∧ w ≤ buf.length % 2 ^ 32 ∧ h.position < 2 ^ 32 ∧
      (buf.length < 2 ^ 32 → h.position + w ≤ buf.length ∧
        h.hash = Hash (slice buf h.position (h.position + w))) := by
  induction hr with
  | new h hw hnew =>
    obtain ⟨hle, rfl⟩ := New_some buf w h hnew
    refine ⟨rfl, rfl, hle, ?_, fun hl => ⟨?_, ?_⟩⟩
    · show (0 : Nat) < 2 ^ 32
      decide
    · have := Nat.mod_eq_of_lt hl
      show 0 + w ≤ buf.length
      omega
    · show Hash (slice buf 0 w) = Hash (slice buf 0 (0 + w))
      rw [Nat.zero_add]
  | roll h step _ _ ih => exact Roll_inv buf w h step ih
  | bulkRoll h stride _ _ ih => rw [BulkRoll_state]; exact ih
  | sum h b _ ih => exact ih
  | write h p _ ih => exact ih
  | reset h _ ih =>
    obtain ⟨hb, hw0, hw, hp, hlen⟩ := ih
    have hw2 : h.windowSize ≤ h.buf.length % 2 ^ 32 := by rw [hb, hw0]; exact hw
    rw [Reset_inv_ret h hw2, hb, hw0]
    refine ⟨rfl, rfl, hw, ?_, fun hl => ⟨?_, ?_⟩⟩
    · show (0 : Nat) < 2 ^ 32
      decide
    · have := Nat.mod_eq_of_lt hl
      show 0 + w ≤ buf.length
      omega
    · show Hash (slice buf 0 w) = Hash (slice buf 0 (0 + w))
      rw [Nat.zero_add]

/-! ## The portable bulk loop on buffers shorter than `2^32` bytes -/

theorem bulkInner_ok (buf : List Byte) (w : Nat) (hlen : buf.length < 2 ^ 32) :
    ∀ cnt pos, pos + w ≤ buf.length →
      bulkInner buf buf.length w cnt pos (Hash (slice buf pos (pos + w)))
        = if pos + cnt + w ≤ buf.length then
            .completed (pos + cnt) (Hash (slice buf (pos + cnt) (pos + cnt + w)))
          else .returned := by
  intro cnt
  induction cnt with
  | zero =>
    intro pos hp
    simp only [bulkInner, Nat.add_zero, hp, if_true]
  | succ cnt ih =>
    intro pos hp
    have m1 : (pos + w) % 2 ^ 32 = pos + w := Nat.mod_eq_of_lt (by omega)
    by_cases hge : pos + w ≥ buf.length
    · have hc : ¬ (pos + (cnt + 1) + w ≤ buf.length) := by omega
      simp only [bulkInner, m1, hge, if_true, hc, if_false]
    · have hlt : pos + w < buf.length := by omega
      obtain ⟨out, inb, h1, h2, h3⟩ := window_step buf pos w hlt
      have m2 : (pos + 1) % 2 ^ 32 = pos + 1 := Nat.mod_eq_of_lt (by omega)
      have e : pos + 1 + cnt = pos + (cnt + 1) := by omega
      have h4 := ih (pos + 1) (by omega)
      rw [e] at h4
      simp only [bulkInner, m1, hge, if_false, h1, h2, m2, h3, h4]

theorem bulkOuter_ok (buf : List Byte) (w stride : Nat) (hlen : buf.length < 2 ^ 32)
    (hs : 0 < stride) :
    ∀ fuel pos acc, pos + w ≤ buf.length → buf.length - w - pos < fuel →
      bulkOuter buf buf.length w stride fuel pos (Hash (slice buf pos (pos + w))) acc
        = .ret (acc ++ (List.range ((buf.length - w - pos) / stride + 1)).map
            (fun k => Hash (slice buf (pos + k * stride) (pos + k * stride + w)))) := by
  intro fuel
  induction fuel with
  | zero => intro pos acc _ hf; exact absurd hf (Nat.not_lt_zero _)
  | succ fuel ih =>
    intro pos acc hp hf
    have m1 : (pos + w) % 2 ^ 32 = pos + w := Nat.mod_eq_of_lt (by omega)
    have hc : ¬ (pos + w > buf.length) := by omega
    have hin := bulkInner_ok buf w hlen stride pos hp
    by_cases hfit : pos + stride + w ≤ buf.length
    · rw [if_pos hfit] at hin
      have hrec := ih (pos + stride) (acc ++ [Hash (slice buf pos (pos + w))])
        (by omega) (by omega)
      have hdiv : (buf.length - w - pos) / stride
          = (buf.length - w - (pos + stride)) / stride + 1 := by
        have e : buf.length - w - pos = (buf.length - w - (pos + stride)) + stride := by omega
        rw [e, Nat.add_div_right _ hs]
      simp only [bulkOuter, m1, hc, if_false, hin, hrec, hdiv]
      rw [List.range_succ_eq_map (((buf.length - w - (pos + stride)) / stride) + 1)]
      simp only [List.map_cons, List.map_map, List.append_assoc, List.singleton_append,
        Nat.zero_mul, Nat.add_zero]
      congr 3
      apply List.map_congr_left
      intro k _
      simp only [Function.comp]
      have e2 : pos + stride + k * stride = pos + (k + 1) * stride := by
        rw [Nat.succ_mul]; omega
      rw [e2]
    · rw [if_neg hfit] at hin
      have hdiv : (buf.length - w - pos) / stride = 0 := Nat.div_eq_of_lt (by omega)
      have hr1 : List.range 1 = [0] := rfl
      simp only [bulkOuter, m1, hc, if_false, hin, hdiv, Nat.zero_add, hr1,
        List.map_cons, List.map_nil, Nat.zero_mul, Nat.add_zero]

theorem BulkRoll_ok (buf : List Byte) (w p stride : Nat) (hlen : buf.length < 2 ^ 32)
    (hs : 0 < stride) (hp : p + w ≤ buf.length) :
    BulkRoll ⟨buf, w, p, Hash (slice buf p (p + w))⟩ stride
      = .ret ((List.range ((buf.length - w - p) / stride + 1)).map
            (fun k => Hash (slice buf (p + k * stride) (p + k * stride + w))), none)
          ⟨buf, w, p, Hash (slice buf p (p + w))⟩ := by
  have m : buf.length % 2 ^ 32 = buf.length := Nat.mod_eq_of_lt hlen
  have hs0 : stride ≠ 0 := by omega
  have h := bulkOuter_ok buf w stride hlen hs (2 ^ 32) p [] hp (by omega)
  simp only [BulkRoll, bulkRoll, hs0, if_false, m, h, List.nil_append]

/-! ## The portable bulk loop returns on every reachable cursor -/

theorem index_some_of_lt (buf : List Byte) (i : Nat) (h : i < buf.length) :
    ∃ b, index buf i = some b :=
  ⟨buf[i], by simp [index, List.get?_eq_getElem?, List.getElem?_eq_getElem h]⟩

theorem bulkInner_total (buf : List Byte) (w : Nat) (hw : w < 2 ^ 32) :
    ∀ cnt pos hash, pos < 2 ^ 32 → (buf.length < 2 ^ 32 → pos + w ≤ buf.length) →
      (pos + w) % 2 ^ 32 ≤ buf.length % 2 ^ 32 →
      bulkInner buf (buf.length % 2 ^ 32) w cnt pos hash = .returned ∨
      ∃ pos1 hash1, bulkInner buf (buf.length % 2 ^ 32) w cnt pos hash
          = .completed pos1 hash1 ∧
        pos1 < 2 ^ 32 ∧ (buf.length < 2 ^ 32 → pos1 + w ≤ buf.length) ∧
        (pos1 + w) % 2 ^ 32 = (pos + w) % 2 ^ 32 + cnt := by
  intro cnt
  induction cnt with
  | zero => intro pos hash hp hl _; exact Or.inr ⟨pos, hash, rfl, hp, hl, rfl⟩
  | succ cnt ih =>
    intro pos hash hp hl hv
    by_cases hge : (pos + w) % 2 ^ 32 ≥ buf.length % 2 ^ 32
    · left
      simp only [bulkInner, hge, if_true]
    · have hn : buf.length % 2 ^ 32 ≤ buf.length := Nat.mod_le _ _
      have hpl : pos < buf.length := by
        by_cases hb : buf.length < 2 ^ 32
        · have := hl hb
          have := Nat.mod_eq_of_lt hb
          omega
        · omega
      obtain ⟨out, h1⟩ := index_some_of_lt buf pos hpl
      obtain ⟨inb, h2⟩ := index_some_of_lt buf ((pos + w) % 2 ^ 32) (by omega)
      have hrec := ih ((pos + 1) % 2 ^ 32)
        (rotateLeft64 hash 1 ^^^ rotateLeft64 (tableAt out) w ^^^ tableAt inb)
        (Nat.mod_lt _ (by decide))
        (fun hb => by
          have := hl hb
          have := Nat.mod_eq_of_lt hb
          omega)
        (by omega)
      have e : bulkInner buf (buf.length % 2 ^ 32) w (cnt + 1) pos hash
          = bulkInner buf (buf.length % 2 ^ 32) w cnt ((pos + 1) % 2 ^ 32)
              (rotateLeft64 hash 1 ^^^ rotateLeft64 (tableAt out) w ^^^ tableAt inb) := by
        simp only [bulkInner, hge, if_false, h1, h2]
      rw [e]
      rcases hrec with hr | ⟨pos1, hash1, hr, hp1, hl1, hv1⟩
      · exact Or.inl hr
      · exact Or.inr ⟨pos1, hash1, hr, hp1, hl1, by omega⟩

theorem bulkOuter_total (buf : List Byte) (w stride : Nat) (hw : w < 2 ^ 32)
    (hs : 0 < stride) :
    ∀ fuel pos hash acc, pos < 2 ^ 32 → (buf.length < 2 ^ 32 → pos + w ≤ buf.length) →
      2 ^ 32 ≤ fuel + (pos + w) % 2 ^ 32 →
      ∃ hashes, bulkOuter buf (buf.length % 2 ^ 32) w stride fuel pos hash acc
        = .ret hashes := by
  intro fuel
  induction fuel with
  | zero =>
    intro pos hash acc _ _ hf
    have : (pos + w) % 2 ^ 32 < 2 ^ 32 := Nat.mod_lt _ (by decide)
    omega
  | succ fuel ih =>
    intro pos hash acc hp hl hf
    by_cases hgt : (pos + w) % 2 ^ 32 > buf.length % 2 ^ 32
    · exact ⟨acc, by simp only [bulkOuter, hgt, if_true]⟩
    · rcases bulkInner_total buf w hw stride pos hash hp hl (by omega) with
        hr | ⟨pos1, hash1, hr, hp1, hl1, hv1⟩
      · exact ⟨acc ++ [hash], by simp only [bulkOuter, hgt, if_false, hr]⟩
      · obtain ⟨hashes, hrec⟩ := ih pos1 hash1 (acc ++ [hash]) hp1 hl1 (by omega)
        exact ⟨hashes, by simp only [bulkOuter, hgt, if_false, hr, hrec]⟩

theorem BulkRoll_total (buf : List Byte) (w : Nat) (h : Hasher) (hr : Reachable buf w h)
    (stride : Nat) (hs : stride ≠ 0) :
    ∃ hashes, BulkRoll h stride = .ret (hashes, none) h := by
  obtain ⟨hb, hw0, hw, hp, hlen⟩ := reachable_inv buf w h hr
  have hw32 : w < 2 ^ 32 := Nat.lt_of_le_of_lt hw (Nat.mod_lt _ (by decide))
  obtain ⟨hashes, hres⟩ := bulkOuter_total buf w stride hw32 (by omega) (2 ^ 32) h.position
    h.hash [] hp (fun hl => (hlen hl).1) (by omega)
  refine ⟨hashes, ?_⟩
  simp only [BulkRoll, bulkRoll, hs, if_false, hb, hw0, hres]

/-! ## Bulk rolling, construction and reset -/

/-- On a buffer of exactly `2^32` bytes the hasher of window 0 is reachable
and `BulkRoll(1)` returns a single hash. -/
theorem BulkRoll_long_buffer (b : List Byte) (hb : b.length = 2 ^ 32) :
    Reachable b 0 ⟨b, 0, 0, 0⟩ ∧
    BulkRoll ⟨b, 0, 0, 0⟩ 1 = .ret ([0], none) ⟨b, 0, 0, 0⟩ ∧
    ([0] : List Nat).length ≠ (b.length - 0 - 0) / 1 + 1 := by
  refine ⟨Reachable.new _ (by decide) (Roll_long_buffer b hb).1, ?_, ?_⟩
  · have hf : (2 : Nat) ^ 32 = 4294967295 + 1 := by decide
    have hm : b.length % 2 ^ 32 = 0 := by rw [hb, Nat.mod_self]
    have h1 : bulkInner b 0 0 1 0 0 = .returned := by
      simp only [bulkInner, Nat.add_zero, Nat.zero_mod, ge_iff_le, Nat.le_refl, if_true]
    have h2 : bulkOuter b 0 0 1 (4294967295 + 1) 0 0 [] = .ret [0] := by
      simp only [bulkOuter, Nat.add_zero, Nat.zero_mod, gt_iff_lt, Nat.lt_irrefl, if_false, h1,
        List.nil_append]
    unfold BulkRoll bulkRoll
    simp only [Nat.one_ne_zero, if_false, hm]
    rw [hf, h2]
  · rw [hb]
    decide

/-- C5, counterexample to the claim as stated: over a buffer of `2^32` zero
bytes the hasher `New(buf, 0)` returns is reachable, and `BulkRoll(1)` returns
one hash, not `(n - w - p) / stride + 1 = 2^32 + 1` of them. -/
theorem bulk_roll_windows_fails_on_long_buffer :
    Reachable (List.replicate (2 ^ 32) (0 : Byte)) 0 ⟨List.replicate (2 ^ 32) 0, 0, 0, 0⟩ ∧
    BulkRoll ⟨List.replicate (2 ^ 32) 0, 0, 0, 0⟩ 1
      = .ret ([0], none) ⟨List.replicate (2 ^ 32) 0, 0, 0, 0⟩ ∧
    ([0] : List Nat).length ≠ ((List.replicate (2 ^ 32) (0 : Byte)).length - 0 - 0) / 1 + 1 :=
  BulkRoll_long_buffer _ (List.length_replicate _ _)

/-- C7: for every hasher and every stride, zero or not, `BulkRoll(stride)`
leaves the receiver as it was: the position, the hash, the window size and the
buffer are those from before the call. -/
theorem bulk_roll_non_mutation (h : Hasher) (stride : Nat) :
    (BulkRoll h stride).state = h ∧
    Position (BulkRoll h stride).state = Position h ∧
    Sum64 (BulkRoll h stride).state = Sum64 h ∧
    (BulkRoll h stride).state.windowSize = h.windowSize ∧
    (BulkRoll h stride).state.buf = h.buf := by
  rw [BulkRoll_state]
  exact ⟨rfl, rfl, rfl, rfl, rfl⟩

/-- In the build without cgo, for every hasher reachable from `New`,
`BulkRoll(stride)` returns `ErrIllegalStride` exactly when `stride` is 0, in
which case it returns the nil slice; for every other stride it returns a
sequence and no error (it neither panics nor loops forever). -/
theorem BulkRoll_illegal_stride_iff (buf : List Byte) (w : Nat) (h : Hasher)
    (hr : Reachable buf w h) (stride : Nat) :
    ((∃ v h1, BulkRoll h stride = .ret (v, some .ErrIllegalStride) h1) ↔ stride = 0) ∧
    (stride = 0 → BulkRoll h stride = .ret ([], some .ErrIllegalStride) h) ∧
    (stride ≠ 0 → ∃ hashes, BulkRoll h stride = .ret (hashes, none) h) := by
  have h0 : stride = 0 → BulkRoll h stride = .ret ([], some .ErrIllegalStride) h := by
    intro hs
    simp only [BulkRoll, hs, if_true]
  refine ⟨⟨?_, fun hs => ⟨_, _, h0 hs⟩⟩, h0, BulkRoll_total buf w h hr stride⟩
  rintro ⟨v, h1, he⟩
  by_contra hs
  obtain ⟨hashes, hok⟩ := BulkRoll_total buf w h hr stride hs
  rw [hok] at he
  cases he

/-- C9 (amended): for every buffer shorter than `2^32` bytes and every
`windowSize`, `New(buf, windowSize)` returns `ErrWindowTooLong` if and only if
`windowSize > len(buf)`; otherwise it returns a hasher with `Position() = 0`
and `Sum64() = Hash(buf[0 : windowSize])`. -/
theorem new_window_too_long_iff (buf : List Byte) (windowSize : Nat)
    (hlen : buf.length < 2 ^ 32) :
    (New buf windowSize = some (none, some .ErrWindowTooLong) ↔ windowSize > buf.length) ∧
    (¬ windowSize > buf.length →
      ∃ h, New buf windowSize = some (some h, none) ∧ Position h = 0 ∧
        Sum64 h = Hash (slice buf 0 windowSize)) := by
  have m : buf.length % 2 ^ 32 = buf.length := Nat.mod_eq_of_lt hlen
  have hok : ¬ windowSize > buf.length →
      New buf windowSize = some (some ⟨buf, windowSize, 0, Hash (slice buf 0 windowSize)⟩,
        none) := fun hc => New_ok buf windowSize hlen (by omega)
  refine ⟨⟨?_, ?_⟩, fun hc => ⟨_, hok hc, rfl, rfl⟩⟩
  · intro he
    by_contra hc
    rw [hok hc] at he
    cases he
  · intro hc
    unfold New
    rw [m, if_pos hc]

/-- C9, witness: the buffer "abc" with window 4. -/
theorem new_window_too_long_iff_witness :
    ([97, 98, 99] : List Byte).length < 2 ^ 32 ∧
    (New [97, 98, 99] 4 = some (none, some .ErrWindowTooLong)
      ↔ 4 > ([97, 98, 99] : List Byte).length) ∧
    (¬ 4 > ([97, 98, 99] : List Byte).length →
      ∃ h, New [97, 98, 99] 4 = some (some h, none) ∧ Position h = 0 ∧
        Sum64 h = Hash (slice [97, 98, 99] 0 4)) :=
  ⟨by decide, new_window_too_long_iff [97, 98, 99] 4 (by decide)⟩

/-- On a buffer of exactly `2^32` bytes `New` rejects every positive window. -/
theorem New_long_buffer_pos (b : List Byte) (hb : b.length = 2 ^ 32) (w : Nat) (hw : 0 < w)
    (hw2 : w ≤ 2 ^ 32) :
    ¬ w > b.length ∧ New b w = some (none, some .ErrWindowTooLong) := by
  refine ⟨by omega, ?_⟩
  unfold New
  rw [hb, Nat.mod_self, if_pos hw]

/-- C9, counterexample to the claim as stated: for a buffer of `2^32` zero
bytes and `windowSize = 5`, `windowSize > len(buf)` is false, yet `New`
returns `ErrWindowTooLong`. -/
theorem new_window_too_long_on_long_buffer :
    ¬ 5 > (List.replicate (2 ^ 32) (0 : Byte)).length ∧
    New (List.replicate (2 ^ 32) (0 : Byte)) 5 = some (none, some .ErrWindowTooLong) :=
  New_long_buffer_pos _ (List.length_replicate _ _) 5 (by decide) (by decide)

/-- C10: for every hasher reachable from `New(buf, w)` by any sequence of
`Roll`, `BulkRoll`, `Sum`, `Write` and `Reset` calls, successful or failed,
`Reset()` returns normally and leaves the hasher in exactly the state `New(buf,
w)` returned, whose `Position()` is 0 and whose `Sum64()` is `Hash(buf[0 : w])`. -/
theorem reset_restores_new (buf : List Byte) (w : Nat) (h0 h : Hasher)
    (hnew : New buf w = some (some h0, none)) (hr : Reachable buf w h) :
    Reset h = .ret () h0 ∧ Position h0 = 0 ∧ Sum64 h0 = Hash (slice buf 0 w) := by
  obtain ⟨_, rfl⟩ := New_some buf w h0 hnew
  obtain ⟨hb, hw0, hw, _, _⟩ := reachable_inv buf w h hr
  have hw2 : h.windowSize ≤ h.buf.length % 2 ^ 32 := by rw [hb, hw0]; exact hw
  rw [Reset_inv_ret h hw2, hb, hw0]
  exact ⟨rfl, rfl, rfl⟩

/-- C10, witness: the hasher `New("abcdefghijk", 4)` returns, after `Roll(2)`,
a failed `Roll(100)`, `BulkRoll(3)` and `Write`. -/
theorem reset_restores_new_witness :
    New [97, 98, 99, 100, 101, 102, 103, 104, 105, 106, 107] 4
      = some (some ⟨[97, 98, 99, 100, 101, 102, 103, 104, 105, 106, 107], 4, 0,
          Hash [97, 98, 99, 100]⟩, none) ∧
    Reset (Write (BulkRoll (Roll (Roll
        ⟨[97, 98, 99, 100, 101, 102, 103, 104, 105, 106, 107], 4, 0, Hash [97, 98, 99, 100]⟩
        2).state 100).state 3).state [1, 2]).state
      = .ret () ⟨[97, 98, 99, 100, 101, 102, 103, 104, 105, 106, 107], 4, 0,
          Hash [97, 98, 99, 100]⟩ ∧
    Position (⟨[97, 98, 99, 100, 101, 102, 103, 104, 105, 106, 107], 4, 0,
      Hash [97, 98, 99, 100]⟩ : Hasher) = 0 ∧
    Sum64 ⟨[97, 98, 99, 100, 101, 102, 103, 104, 105, 106, 107], 4, 0,
        Hash [97, 98, 99, 100]⟩
      = Hash (slice [97, 98, 99, 100, 101, 102, 103, 104, 105, 106, 107] 0 4) :=
  ⟨by decide,
    reset_restores_new [97, 98, 99, 100, 101, 102, 103, 104, 105, 106, 107] 4 _ _ (by decide)
      (Reachable.write _ [1, 2] (Reachable.bulkRoll _ 3 (Reachable.roll _ 100
        (Reachable.roll _ 2 (Reachable.new _ (by decide) (by decide)) (by decide))
        (by decide)) (by decide)))⟩

/-! ## `Roll` and the bulk/roll agreement when the guard does not wrap -/

theorem Roll_illegal (h : Hasher) (step : Nat)
    (hc : (h.position + step + h.windowSize) % 2 ^ 32 > h.buf.length % 2 ^ 32) :
    Roll h step = .ret (0, some .ErrIllegalRoll) h := by
  unfold Roll
  rw [if_pos hc]

/-- When `position + step + windowSize` stays below `2^32`, `Roll(step)` on a
reachable hasher over a buffer shorter than `2^32` bytes returns
`ErrIllegalRoll` and leaves the hasher unchanged exactly when the sum exceeds
`len(buf)`, and otherwise succeeds. -/
theorem Roll_no_wrap (buf : List Byte) (w : Nat) (h : Hasher) (hr : Reachable buf w h)
    (hlen : buf.length < 2 ^ 32) (step : Nat) (hnw : h.position + step + w < 2 ^ 32) :
    (h.position + step + w > buf.length → Roll h step = .ret (0, some .ErrIllegalRoll) h) ∧
    (h.position + step + w ≤ buf.length →
      Roll h step = .ret (Hash (slice buf (h.position + step) (h.position + step + w)), none)
        ⟨buf, w, h.position + step,
          Hash (slice buf (h.position + step) (h.position + step + w))⟩) := by
  obtain ⟨hb, hw0, _, _, hinv⟩ := reachable_inv buf w h hr
  obtain ⟨hpw, hh⟩ := hinv hlen
  obtain ⟨b, w0, p, hash⟩ := h
  simp only at hb hw0 hpw hh hnw ⊢
  subst hb hw0 hh
  refine ⟨fun hgt => Roll_illegal _ _ ?_, fun hle => Roll_ok b w0 p step hlen hle⟩
  have m1 : (p + step + w0) % 2 ^ 32 = p + step + w0 := Nat.mod_eq_of_lt hnw
  have m2 : b.length % 2 ^ 32 = b.length := Nat.mod_eq_of_lt hlen
  simp only [m1, m2]
  exact hgt

theorem rollCollect_ok (buf : List Byte) (w stride : Nat) (hlen : buf.length < 2 ^ 32)
    (hs : 0 < stride) (hnw : buf.length + stride < 2 ^ 32) :
    ∀ fuel p, p + w ≤ buf.length → buf.length - w - p < fuel →
      rollCollect stride fuel ⟨buf, w, p, Hash (slice buf p (p + w))⟩
        = .ret ((List.range ((buf.length - w - p) / stride)).map
            (fun k => Hash (slice buf (p + (k + 1) * stride) (p + (k + 1) * stride + w)))) := by
  intro fuel
  induction fuel with
  | zero => intro p _ hf; exact absurd hf (Nat.not_lt_zero _)
  | succ fuel ih =>
    intro p hp hf
    by_cases hfit : p + stride + w ≤ buf.length
    · have hroll := Roll_ok buf w p stride hlen hfit
      have hrec := ih (p + stride) (by omega) (by omega)
      have hdiv : (buf.length - w - p) / stride
          = (buf.length - w - (p + stride)) / stride + 1 := by
        have e : buf.length - w - p = (buf.length - w - (p + stride)) + stride := by omega
        rw [e, Nat.add_div_right _ hs]
      simp only [rollCollect, hroll, hrec, hdiv]
      rw [List.range_succ_eq_map ((buf.length - w - (p + stride)) / stride)]
      simp only [List.map_cons, List.map_map, Nat.zero_add, Nat.one_mul]
      congr 2
      apply List.map_congr_left
      intro k _
      simp only [Function.comp]
      have e2 : p + stride + (k + 1) * stride = p + (k + 1 + 1) * stride := by
        rw [Nat.succ_mul (k + 1)]; omega
      rw [e2]
    · have hroll : Roll ⟨buf, w, p, Hash (slice buf p (p + w))⟩ stride
          = .ret (0, some .ErrIllegalRoll) ⟨buf, w, p, Hash (slice buf p (p + w))⟩ := by
        apply Roll_illegal
        have m1 : (p + stride + w) % 2 ^ 32 = p + stride + w := Nat.mod_eq_of_lt (by omega)
        have m2 : buf.length % 2 ^ 32 = buf.length := Nat.mod_eq_of_lt hlen
        simp only [m1, m2]
        omega
      have hdiv : (buf.length - w - p) / stride = 0 := Nat.div_eq_of_lt (by omega)
      simp only [rollCollect, hroll, hdiv, List.range_zero, List.map_nil]

/-- Bulk/roll agreement where the guard of `Roll` cannot wrap: on a reachable
hasher, with `len(buf) + stride < 2^32` and `stride ≥ 1`, `BulkRoll(stride)`
returns exactly the current hash followed by the results of the successive
`Roll(stride)` calls up to the first `ErrIllegalRoll`. -/
theorem bulk_roll_agrees_no_wrap (buf : List Byte) (w : Nat) (h : Hasher)
    (hr : Reachable buf w h) (stride : Nat) (hs : 1 ≤ stride)
    (hnw : buf.length + stride < 2 ^ 32) :
    ∃ hashes, BulkRoll h stride = .ret (hashes, none) h ∧
      ∀ fuel, buf.length < fuel → bulkByRoll h stride fuel = .ret hashes := by
  have hlen : buf.length < 2 ^ 32 := by omega
  obtain ⟨hb, hw0, _, _, hinv⟩ := reachable_inv buf w h hr
  obtain ⟨hpw, hh⟩ := hinv hlen
  obtain ⟨b, w0, p, hash⟩ := h
  simp only at hb hw0 hpw hh
  subst hb hw0 hh
  refine ⟨_, BulkRoll_ok b w0 p stride hlen hs hpw, fun fuel hf => ?_⟩
  have hc := rollCollect_ok b w0 stride hlen hs hnw fuel p hpw (by omega)
  simp only [bulkByRoll, hc]
  rw [List.range_succ_eq_map ((b.length - w0 - p) / stride)]
  simp only [List.map_cons, List.map_map, Nat.zero_mul, Nat.add_zero]
  rfl

/-! ## Reset, the digest adapter and the hash formula -/

theorem rotateLeft64_mod (x k : Nat) : rotateLeft64 x (k % 64) = rotateLeft64 x k := by
  simp only [rotateLeft64, Nat.mod_mod]

theorem foldl_xor_eq_foldr (g : Nat → Nat) (l : List Nat) (a : Nat) :
    l.foldl (fun h i => h ^^^ g i) a = a ^^^ (l.map g).foldr (fun x acc => x ^^^ acc) 0 := by
  induction l generalizing a with
  | nil => simp
  | cons i l ih =>
    simp only [List.foldl_cons, List.map_cons, List.foldr_cons]
    rw [ih, Nat.xor_assoc]

theorem Hash_eq_specHash (p : List Byte) : Hash p = specHash p := by
  unfold Hash hashBuf specHash
  simp only [foldl_xor_eq_foldr, Nat.zero_xor, rotateLeft64_mod]

theorem resetRepeat_fixed (h0 : Hasher) (hfix : Reset h0 = .ret () h0) :
    ∀ k, resetRepeat k h0 = .ret () h0 := by
  intro k
  induction k with
  | zero => rfl
  | succ k ih => simp only [resetRepeat, hfix, ih]

theorem rollStep_hash_lt (h h1 : Hasher) (hh : h.hash < 2 ^ 64)
    (hs : rollStep h = some h1) : h1.hash < 2 ^ 64 := by
  unfold rollStep at hs
  split at hs
  · cases hs
  · split at hs
    · cases hs
    · cases hs
      exact Nat.xor_lt_two_pow
        (Nat.xor_lt_two_pow (rotateLeft64_lt hh 1) (rotateLeft64_lt (tableAt_lt _) _))
        (tableAt_lt _)

theorem rollLoop_hash_lt : ∀ (cnt : Nat) (h : Hasher), h.hash < 2 ^ 64 →
    (rollLoop cnt h).state.hash < 2 ^ 64 := by
  intro cnt
  induction cnt with
  | zero => intro h hh; exact hh
  | succ cnt ih =>
    intro h hh
    cases hs : rollStep h with
    | none =>
      have e : rollLoop (cnt + 1) h = .panic h := by simp only [rollLoop, hs]
      rw [e]; exact hh
    | some h1 =>
      have e : rollLoop (cnt + 1) h = rollLoop cnt h1 := by simp only [rollLoop, hs]
      rw [e]; exact ih h1 (rollStep_hash_lt h h1 hh hs)

theorem Roll_hash_lt (h : Hasher) (step : Nat) (hh : h.hash < 2 ^ 64) :
    (Roll h step).state.hash < 2 ^ 64 := by
  have hl := rollLoop_hash_lt step h hh
  unfold Roll
  split
  · exact hh
  · split
    · rename_i h1 he; rw [he] at hl; exact hl
    · rename_i h1 he; rw [he] at hl; exact hl
    · rename_i _ h1 he; rw [he] at hl; exact hl

theorem Reset_hash_lt (h : Hasher) (hh : h.hash < 2 ^ 64) :
    (Reset h).state.hash < 2 ^ 64 := by
  unfold Reset
  split
  · exact hh
  · exact hashBuf_lt _

theorem reachable_hash_lt (buf : List Byte) (w : Nat) (h : Hasher)
    (hr : Reachable buf w h) : h.hash < 2 ^ 64 := by
  induction hr with
  | new h hw hnew =>
    obtain ⟨_, rfl⟩ := New_some buf w h hnew
    exact hashBuf_lt _
  | roll h step _ _ ih => exact Roll_hash_lt h step ih
  | bulkRoll h stride _ _ ih => rw [BulkRoll_state]; exact ih
  | sum h b _ ih => exact ih
  | write h p _ ih => exact ih
  | reset h _ ih => exact Reset_hash_lt h ih

/-! ## Big-endian encoding of the digest -/

theorem testBit_byte_shift (v s i : Nat) :
    (((v >>> s) % 256) <<< s % 2 ^ 64).testBit i
      = (decide (i < 64) && decide (s ≤ i) && decide (i < s + 8) && v.testBit i) := by
  have e256 : (256 : Nat) = 2 ^ 8 := by decide
  rw [e256]
  simp only [Nat.testBit_mod_two_pow, Nat.testBit_shiftLeft, Nat.testBit_shiftRight]
  by_cases h1 : s ≤ i
  · have e : s + (i - s) = i := by omega
    by_cases h2 : i < s + 8
    · have h3 : i - s < 8 := by omega
      simp [h1, h2, h3, e]
    · have h3 : ¬ i - s < 8 := by omega
      simp [h1, h2, h3]
  · simp [h1]

theorem beUint64_putUint64 (v : Nat) (hv : v < 2 ^ 64) (rest : List Byte) :
    beUint64 (putUint64 v ++ rest) = some v := by
  simp only [putUint64, beUint64, List.cons_append, List.nil_append, byteOf]
  congr 1
  apply Nat.eq_of_testBit_eq
  intro i
  have e256 : (256 : Nat) = 2 ^ 8 := by decide
  simp only [Nat.testBit_or, testBit_byte_shift]
  rw [e256, Nat.testBit_mod_two_pow]
  by_cases h : i < 64
  · have : i < 8 ∨ (8 ≤ i ∧ i < 16) ∨ (16 ≤ i ∧ i < 24) ∨ (24 ≤ i ∧ i < 32) ∨
        (32 ≤ i ∧ i < 40) ∨ (40 ≤ i ∧ i < 48) ∨ (48 ≤ i ∧ i < 56) ∨ (56 ≤ i ∧ i < 64) := by
      omega
    rcases this with c | c | c | c | c | c | c | c
    · have a0 : ¬ 8 ≤ i := by omega
      have a1 : ¬ 16 ≤ i := by omega
      have a2 : ¬ 24 ≤ i := by omega
      have a3 : ¬ 32 ≤ i := by omega
      have a4 : ¬ 40 ≤ i := by omega
      have a5 : ¬ 48 ≤ i := by omega
      have a6 : ¬ 56 ≤ i := by omega
      have b0 : i < 8 := by omega
      have b1 : i < 16 := by omega
      have b2 : i < 24 := by omega
      have b3 : i < 32 := by omega
      have b4 : i < 40 := by omega
      have b5 : i < 48 := by omega
      have b6 : i < 56 := by omega
      have b7 : i < 64 := by omega
      simp [h, a0, a1, a2, a3, a4, a5, a6, b0, b1, b2, b3, b4, b5, b6, b7]
    · have a0 : 8 ≤ i := by omega
      have a1 : ¬ 16 ≤ i := by omega
      have a2 : ¬ 24 ≤ i := by omega
      have a3 : ¬ 32 ≤ i := by omega
      have a4 : ¬ 40 ≤ i := by omega
      have a5 : ¬ 48 ≤ i := by omega
      have a6 : ¬ 56 ≤ i := by omega
      have b0 : ¬ i < 8 := by omega
      have b1 : i < 16 := by omega
      have b2 : i < 24 := by omega
      have b3 : i < 32 := by omega
      have b4 : i < 40 := by omega
      have b5 : i < 48 := by omega
      have b6 : i < 56 := by omega
      have b7 : i < 64 := by omega
      simp [h, a0, a1, a2, a3, a4, a5, a6, b0, b1, b2, b3, b4, b5, b6, b7]
    · have a0 : 8 ≤ i := by omega
      have a1 : 16 ≤ i := by omega
      have a2 : ¬ 24 ≤ i := by omega
      have a3 : ¬ 32 ≤ i := by omega
      have a4 : ¬ 40 ≤ i := by omega
      have a5 : ¬ 48 ≤ i := by omega
      have a6 : ¬ 56 ≤ i := by omega
      have b0 : ¬ i < 8 := by omega
      have b1 : ¬ i < 16 := by omega
      have b2 : i < 24 := by omega
      have b3 : i < 32 := by omega
      have b4 : i < 40 := by omega
      have b5 : i < 48 := by omega
      have b6 : i < 56 := by omega
      have b7 : i < 64 := by omega
      simp [h, a0, a1, a2, a3, a4, a5, a6, b0, b1, b2, b3, b4, b5, b6, b7]
    · have a0 : 8 ≤ i := by omega
      have a1 : 16 ≤ i := by omega
      have a2 : 24 ≤ i := by omega
      have a3 : ¬ 32 ≤ i := by omega
      have a4 : ¬ 40 ≤ i := by omega
      have a5 : ¬ 48 ≤ i := by omega
      have a6 : ¬ 56 ≤ i := by omega
      have b0 : ¬ i < 8 := by omega
      have b1 : ¬ i < 16 := by omega
      have b2 : ¬ i < 24 := by omega
      have b3 : i < 32 := by omega
      have b4 : i < 40 := by omega
      have b5 : i < 48 := by omega
      have b6 : i < 56 := by omega
      have b7 : i < 64 := by omega
      simp [h, a0, a1, a2, a3, a4, a5, a6, b0, b1, b2, b3, b4, b5, b6, b7]
    · have a0 : 8 ≤ i := by omega
      have a1 : 16 ≤ i := by omega
      have a2 : 24 ≤ i := by omega
      have a3 : 32 ≤ i := by omega
      have a4 : ¬ 40 ≤ i := by omega
      have a5 : ¬ 48 ≤ i := by omega
      have a6 : ¬ 56 ≤ i := by omega
      have b0 : ¬ i < 8 := by omega
      have b1 : ¬ i < 16 := by omega
      have b2 : ¬ i < 24 := by omega
      have b3 : ¬ i < 32 := by omega
      have b4 : i < 40 := by omega
      have b5 : i < 48 := by omega
      have b6 : i < 56 := by omega
      have b7 : i < 64 := by omega
      simp [h, a0, a1, a2, a3, a4, a5, a6, b0, b1, b2, b3, b4, b5, b6, b7]
    · have a0 : 8 ≤ i := by omega
      have a1 : 16 ≤ i := by omega
      have a2 : 24 ≤ i := by omega
      have a3 : 32 ≤ i := by omega
      have a4 : 40 ≤ i := by omega
      have a5 : ¬ 48 ≤ i := by omega
      have a6 : ¬ 56 ≤ i := by omega
      have b0 : ¬ i < 8 := by omega
      have b1 : ¬ i < 16 := by omega
      have b2 : ¬ i < 24 := by omega
      have b3 : ¬ i < 32 := by omega
      have b4 : ¬ i < 40 := by omega
      have b5 : i < 48 := by omega
      have b6 : i < 56 := by omega
      have b7 : i < 64 := by omega
      simp [h, a0, a1, a2, a3, a4, a5, a6, b0, b1, b2, b3, b4, b5, b6, b7]
    · have a0 : 8 ≤ i := by omega
      have a1 : 16 ≤ i := by omega
      have a2 : 24 ≤ i := by omega
      have a3 : 32 ≤ i := by omega
      have a4 : 40 ≤ i := by omega
      have a5 : 48 ≤ i := by omega
      have a6 : ¬ 56 ≤ i := by omega
      have b0 : ¬ i < 8 := by omega
      have b1 : ¬ i < 16 := by omega
      have b2 : ¬ i < 24 := by omega
      have b3 : ¬ i < 32 := by omega
      have b4 : ¬ i < 40 := by omega
      have b5 : ¬ i < 48 := by omega
      have b6 : i < 56 := by omega
      have b7 : i < 64 := by omega
      simp [h, a0, a1, a2, a3, a4, a5, a6, b0, b1, b2, b3, b4, b5, b6, b7]
    · have a0 : 8 ≤ i := by omega
      have a1 : 16 ≤ i := by omega
      have a2 : 24 ≤ i := by omega
      have a3 : 32 ≤ i := by omega
      have a4 : 40 ≤ i := by omega
      have a5 : 48 ≤ i := by omega
      have a6 : 56 ≤ i := by omega
      have b0 : ¬ i < 8 := by omega
      have b1 : ¬ i < 16 := by omega
      have b2 : ¬ i < 24 := by omega
      have b3 : ¬ i < 32 := by omega
      have b4 : ¬ i < 40 := by omega
      have b5 : ¬ i < 48 := by omega
      have b6 : ¬ i < 56 := by omega
      have b7 : i < 64 := by omega
      simp [h, a0, a1, a2, a3, a4, a5, a6, b0, b1, b2, b3, b4, b5, b6, b7]
  · have hz : v.testBit i = false :=
      Nat.testBit_lt_two_pow (Nat.lt_of_lt_of_le hv (Nat.pow_le_pow_right (by decide) (by omega)))
    simp [h, hz]

/-! ## Reset idempotence, digest append, write, hash formula, cursor invariants -/

theorem Reset_reachable (buf : List Byte) (w : Nat) (h0 h : Hasher)
    (hnew : New buf w = some (some h0, none)) (hr : Reachable buf w h) :
    Reset h = .ret () h0 := by
  obtain ⟨_, rfl⟩ := New_some buf w h0 hnew
  obtain ⟨hb, hw0, hw, _, _⟩ := reachable_inv buf w h hr
  have hw2 : h.windowSize ≤ h.buf.length % 2 ^ 32 := by rw [hb, hw0]; exact hw
  rw [Reset_inv_ret h hw2, hb, hw0]

/-- C11: for every hasher reachable from `New(buf, w)` and every `n ≥ 1`,
calling `Reset()` `n` times in a row ends in the same outcome as calling it
once: every call returns, the final state is the hasher `New(buf, w)` returned,
so `Position()` and `Sum64()` are those after one `Reset()`, and `Sum64()` is
the value the hasher had immediately after construction. -/
theorem reset_idempotent (buf : List Byte) (w : Nat) (h0 h : Hasher)
    (hnew : New buf w = some (some h0, none)) (hr : Reachable buf w h)
    (n : Nat) (hn : 1 ≤ n) :
    resetRepeat n h = resetRepeat 1 h ∧
    resetRepeat n h = .ret () h0 ∧
    Position (resetRepeat n h).state = Position (resetRepeat 1 h).state ∧
    Sum64 (resetRepeat n h).state = Sum64 (resetRepeat 1 h).state ∧
    Sum64 (resetRepeat n h).state = Sum64 h0 := by
  have h1 := Reset_reachable buf w h0 h hnew hr
  have h2 := Reset_reachable buf w h0 h0 hnew
    (Reachable.new h0 (by
      have := (New_some buf w h0 hnew).1
      have : buf.length % 2 ^ 32 < 2 ^ 32 := Nat.mod_lt _ (by decide)
      omega) hnew)
  have hfix := resetRepeat_fixed h0 h2
  have hk : ∀ k, resetRepeat (k + 1) h = .ret () h0 := by
    intro k
    simp only [resetRepeat, h1, hfix k]
  obtain ⟨k, rfl⟩ : ∃ k, n = k + 1 := ⟨n - 1, by omega⟩
  rw [hk k, hk 0]
  exact ⟨rfl, rfl, rfl, rfl, rfl⟩

/-- C11, witness: the hasher `New("abcdefghijk", 4)` returns, after `Roll(2)`,
reset three times. -/
theorem reset_idempotent_witness :
    New [97, 98, 99, 100, 101, 102, 103, 104, 105, 106, 107] 4
      = some (some ⟨[97, 98, 99, 100, 101, 102, 103, 104, 105, 106, 107], 4, 0,
          Hash [97, 98, 99, 100]⟩, none) ∧
    1 ≤ 3 ∧
    resetRepeat 3 (Roll ⟨[97, 98, 99, 100, 101, 102, 103, 104, 105, 106, 107], 4, 0,
        Hash [97, 98, 99, 100]⟩ 2).state
      = resetRepeat 1 (Roll ⟨[97, 98, 99, 100, 101, 102, 103, 104, 105, 106, 107], 4, 0,
        Hash [97, 98, 99, 100]⟩ 2).state ∧
    resetRepeat 3 (Roll ⟨[97, 98, 99, 100, 101, 102, 103, 104, 105, 106, 107], 4, 0,
        Hash [97, 98, 99, 100]⟩ 2).state
      = .ret () ⟨[97, 98, 99, 100, 101, 102, 103, 104, 105, 106, 107], 4, 0,
          Hash [97, 98, 99, 100]⟩ ∧
    Position (resetRepeat 3 (Roll ⟨[97, 98, 99, 100, 101, 102, 103, 104, 105, 106, 107], 4, 0,
        Hash [97, 98, 99, 100]⟩ 2).state).state
      = Position (resetRepeat 1 (Roll ⟨[97, 98, 99, 100, 101, 102, 103, 104, 105, 106, 107],
        4, 0, Hash [97, 98, 99, 100]⟩ 2).state).state ∧
    Sum64 (resetRepeat 3 (Roll ⟨[97, 98, 99, 100, 101, 102, 103, 104, 105, 106, 107], 4, 0,
        Hash [97, 98, 99, 100]⟩ 2).state).state
      = Sum64 (resetRepeat 1 (Roll ⟨[97, 98, 99, 100, 101, 102, 103, 104, 105, 106, 107],
        4, 0, Hash [97, 98, 99, 100]⟩ 2).state).state ∧
    Sum64 (resetRepeat 3 (Roll ⟨[97, 98, 99, 100, 101, 102, 103, 104, 105, 106, 107], 4, 0,
        Hash [97, 98, 99, 100]⟩ 2).state).state
      = Sum64 ⟨[97, 98, 99, 100, 101, 102, 103, 104, 105, 106, 107], 4, 0,
          Hash [97, 98, 99, 100]⟩ :=
  ⟨by decide, by decide,
    reset_idempotent [97, 98, 99, 100, 101, 102, 103, 104, 105, 106, 107] 4 _ _ (by decide)
      (Reachable.roll _ 2 (Reachable.new _ (by decide) (by decide)) (by decide)) 3
      (by decide)⟩

/-- C12: for every hasher (its hash a `uint64`) and every byte sequence `b`,
`Sum(b)` returns `b` followed by the 8-byte big-endian encoding of `Sum64()`:
its length is `len(b) + Size()` with `Size() = 8`, its first `len(b)` bytes are
`b`, decoding its last 8 bytes as a big-endian `uint64` gives `Sum64()`, and
the position and the hash of the hasher are unchanged. -/
theorem sum_appends_digest (h : Hasher) (b : List Byte) (hh : h.hash < 2 ^ 64) :
    ∃ out, Sum h b = .ret out h ∧
      out = b ++ putUint64 (Sum64 h) ∧
      out.length = b.length + Size h ∧ Size h = 8 ∧
      out.take b.length = b ∧
      (out.drop b.length).length = 8 ∧
      beUint64 (out.drop b.length) = some (Sum64 h) ∧
      Position (Sum h b).state = Position h ∧
      Sum64 (Sum h b).state = Sum64 h := by
  refine ⟨_, rfl, rfl, ?_, rfl, ?_, ?_, ?_, rfl, rfl⟩
  · simp [putUint64, Size, hashSizeBytes]
  · simp
  · simp [putUint64]
  · have hd : (b ++ putUint64 (Sum64 h)).drop b.length = putUint64 (Sum64 h) ++ [] := by simp
    rw [hd]
    exact beUint64_putUint64 _ hh []

/-- C12, witness: the hasher `New("hello world", 5)` returns, with the prefix
`{1, 2, 3}`. -/
theorem sum_appends_digest_witness :
    Hash [104, 101, 108, 108, 111] < 2 ^ 64 ∧
    ∃ out, Sum ⟨[104, 101, 108, 108, 111, 32, 119, 111, 114, 108, 100], 5, 0,
          Hash [104, 101, 108, 108, 111]⟩ [1, 2, 3]
        = .ret out ⟨[104, 101, 108, 108, 111, 32, 119, 111, 114, 108, 100], 5, 0,
          Hash [104, 101, 108, 108, 111]⟩ ∧
      out = [1, 2, 3] ++ putUint64 (Sum64 ⟨[104, 101, 108, 108, 111, 32, 119, 111, 114, 108,
        100], 5, 0, Hash [104, 101, 108, 108, 111]⟩) ∧
      out.length = ([1, 2, 3] : List Byte).length + Size ⟨[104, 101, 108, 108, 111, 32, 119,
        111, 114, 108, 100], 5, 0, Hash [104, 101, 108, 108, 111]⟩ ∧
      Size ⟨[104, 101, 108, 108, 111, 32, 119, 111, 114, 108, 100], 5, 0,
        Hash [104, 101, 108, 108, 111]⟩ = 8 ∧
      out.take ([1, 2, 3] : List Byte).length = [1, 2, 3] ∧
      (out.drop ([1, 2, 3] : List Byte).length).length = 8 ∧
      beUint64 (out.drop ([1, 2, 3] : List Byte).length)
        = some (Sum64 ⟨[104, 101, 108, 108, 111, 32, 119, 111, 114, 108, 100], 5, 0,
          Hash [104, 101, 108, 108, 111]⟩) ∧
      Position (Sum ⟨[104, 101, 108, 108, 111, 32, 119, 111, 114, 108, 100], 5, 0,
          Hash [104, 101, 108, 108, 111]⟩ [1, 2, 3]).state
        = Position ⟨[104, 101, 108, 108, 111, 32, 119, 111, 114, 108, 100], 5, 0,
          Hash [104, 101, 108, 108, 111]⟩ ∧
      Sum64 (Sum ⟨[104, 101, 108, 108, 111, 32, 119, 111, 114, 108, 100], 5, 0,
          Hash [104, 101, 108, 108, 111]⟩ [1, 2, 3]).state
        = Sum64 ⟨[104, 101, 108, 108, 111, 32, 119, 111, 114, 108, 100], 5, 0,
          Hash [104, 101, 108, 108, 111]⟩ :=
  ⟨by decide,
    sum_appends_digest ⟨[104, 101, 108, 108, 111, 32, 119, 111, 114, 108, 100], 5, 0,
      Hash [104, 101, 108, 108, 111]⟩ [1, 2, 3] (by decide)⟩

/-- C13: for every hasher and every byte sequence `p`, the empty one
included, `Write(p)` returns 0 bytes accepted together with `ErrNotWritable`,
and leaves `Position()` and `Sum64()` unchanged. -/
theorem write_not_writable (h : Hasher) (p : List Byte) :
    Write h p = .ret (0, some .ErrNotWritable) h ∧
    Write h [] = .ret (0, some .ErrNotWritable) h ∧
    Position (Write h p).state = Position h ∧
    Sum64 (Write h p).state = Sum64 h :=
  ⟨rfl, rfl, rfl, rfl⟩

/-- C15: for every byte sequence `p` of length `n`, every read `p[i]` of
`Hash(p)` is in range, so `Hash` never fails, and `Hash(p)` is the bitwise XOR
over `i = 0..n-1` of `rotateLeft64(table[p[i]], (n-1-i) mod 64)`; `Hash` of the
empty sequence is 0 and `Hash` of a single byte `b` is `table[b]`. -/
theorem hash_formula (p : List Byte) :
    Hash p = specHash p ∧
    (List.range p.length).all (fun i => (index p i).isSome) = true ∧
    Hash [] = 0 ∧
    ∀ b : Byte, Hash [b] = tableAt b := by
  refine ⟨Hash_eq_specHash p, ?_, rfl, ?_⟩
  · rw [List.all_eq_true]
    intro i hi
    obtain ⟨b, hb⟩ := index_some_of_lt p i (List.mem_range.mp hi)
    rw [hb]
    rfl
  · intro b
    have h := hashBuf_append_singleton [] b
    simp only [List.nil_append, hashBuf_nil, rotateLeft64_zero_left, Nat.zero_xor] at h
    exact h

/-- C16: every hasher reachable from `New(buf, w)` by `Roll`, `BulkRoll`,
`Sum`, `Write` and `Reset` calls, successful or not, over a buffer of any
length, satisfies `0 ≤ position` and `position + windowSize ≤ len(buffer)`. -/
theorem position_invariant (buf : List Byte) (w : Nat) (h : Hasher)
    (hr : Reachable buf w h) :
    0 ≤ Position h ∧ Position h + h.windowSize ≤ h.buf.length := by
  obtain ⟨hb, hw0, hw, hp, hlen⟩ := reachable_inv buf w h hr
  refine ⟨Nat.zero_le _, ?_⟩
  rw [hb, hw0]
  unfold Position
  by_cases hl : buf.length < 2 ^ 32
  · exact (hlen hl).1
  · omega

/-- C16, witness: the hasher `New("abc", 2)` returns, after a successful
`Roll(1)` and a refused `Roll(1)`. -/
theorem position_invariant_witness :
    0 ≤ Position (Roll (Roll ⟨[97, 98, 99], 2, 0, Hash [97, 98]⟩ 1).state 1).state ∧
    Position (Roll (Roll ⟨[97, 98, 99], 2, 0, Hash [97, 98]⟩ 1).state 1).state
        + (Roll (Roll ⟨[97, 98, 99], 2, 0, Hash [97, 98]⟩ 1).state 1).state.windowSize
      ≤ (Roll (Roll ⟨[97, 98, 99], 2, 0, Hash [97, 98]⟩ 1).state 1).state.buf.length :=
  position_invariant [97, 98, 99] 2 _
    (Reachable.roll _ 1 (Reachable.roll _ 1 (Reachable.new _ (by decide) (by decide))
      (by decide)) (by decide))

/-- C17 (amended): every hasher that `New(buf, w)` returns without error has
the window size `w` it was given, which is at most `len(buf)` and may be 0,
and every hasher reachable from it has the same window size. -/
theorem window_size_fixed (buf : List Byte) (w : Nat) (h0 : Hasher)
    (hnew : New buf w = some (some h0, none)) :
    h0.windowSize = w ∧ h0.windowSize ≤ buf.length ∧
    ∀ h, Reachable buf w h → h.windowSize = h0.windowSize := by
  obtain ⟨hle, rfl⟩ := New_some buf w h0 hnew
  refine ⟨rfl, Nat.le_trans hle (Nat.mod_le _ _), fun h hr => ?_⟩
  exact (reachable_inv buf w h hr).2.1

/-- C17, witness: the buffer "abc" with window 2. -/
theorem window_size_fixed_witness :
    New [97, 98, 99] 2 = some (some ⟨[97, 98, 99], 2, 0, Hash [97, 98]⟩, none) ∧
    (⟨[97, 98, 99], 2, 0, Hash [97, 98]⟩ : Hasher).windowSize = 2 ∧
    (⟨[97, 98, 99], 2, 0, Hash [97, 98]⟩ : Hasher).windowSize
      ≤ ([97, 98, 99] : List Byte).length ∧
    ∀ h, Reachable [97, 98, 99] 2 h
      → h.windowSize = (⟨[97, 98, 99], 2, 0, Hash [97, 98]⟩ : Hasher).windowSize :=
  ⟨by decide, window_size_fixed [97, 98, 99] 2 _ (by decide)⟩

/-- C17, counterexample to the claim as stated: `New("abc", 0)` returns a
hasher without error, and its window size is 0, not a positive integer. -/
theorem new_accepts_zero_window :
    ∃ h, New [97, 98, 99] 0 = some (some h, none) ∧ ¬ 1 ≤ h.windowSize :=
  ⟨⟨[97, 98, 99], 0, 0, 0⟩, by decide, by decide⟩

/-- C18 (amended): for every hasher whose window fits its buffer, `Reset()`
returns, sets `Position()` to 0 and sets `Sum64()` to
`Hash(buf[0 : windowSize])`, the hash of the first window; the buffer and the
window size are kept. -/
theorem reset_recomputes_first_window (h : Hasher) (hw : h.windowSize ≤ h.buf.length) :
    ∃ h1, Reset h = .ret () h1 ∧ Position h1 = 0 ∧
      Sum64 h1 = Hash (slice h.buf 0 h.windowSize) ∧
      h1.buf = h.buf ∧ h1.windowSize = h.windowSize := by
  refine ⟨⟨h.buf, h.windowSize, 0, Hash (slice h.buf 0 h.windowSize)⟩, ?_, rfl, rfl, rfl, rfl⟩
  simp [Reset, sliceTo, hw, slice, Hash]

/-- C18, witness: the hasher over "abcdefghijk" with window 4 at position 2. -/
theorem reset_recomputes_first_window_witness :
    4 ≤ ([97, 98, 99, 100, 101, 102, 103, 104, 105, 106, 107] : List Byte).length ∧
    ∃ h1, Reset ⟨[97, 98, 99, 100, 101, 102, 103, 104, 105, 106, 107], 4, 2,
          Hash [99, 100, 101, 102]⟩ = .ret () h1 ∧
      Position h1 = 0 ∧
      Sum64 h1 = Hash (slice [97, 98, 99, 100, 101, 102, 103, 104, 105, 106, 107] 0 4) ∧
      h1.buf = [97, 98, 99, 100, 101, 102, 103, 104, 105, 106, 107] ∧ h1.windowSize = 4 :=
  ⟨by decide,
    reset_recomputes_first_window ⟨[97, 98, 99, 100, 101, 102, 103, 104, 105, 106, 107], 4, 2,
      Hash [99, 100, 101, 102]⟩ (by decide)⟩

/-- C18, counterexample to the claim as stated: on the hasher
`New("abc", 2)` returns, `Reset()` leaves `Sum64() = Hash("ab")`, which is not
0. -/
theorem reset_does_not_zero_hash :
    New [97, 98, 99] 2 = some (some ⟨[97, 98, 99], 2, 0, Hash [97, 98]⟩, none) ∧
    Reset ⟨[97, 98, 99], 2, 0, Hash [97, 98]⟩ = .ret () ⟨[97, 98, 99], 2, 0, Hash [97, 98]⟩ ∧
    Sum64 (Reset ⟨[97, 98, 99], 2, 0, Hash [97, 98]⟩).state ≠ 0 := by
  decide

/-! ## Counting the hashes of the portable bulk loop -/

theorem bulkInner_exit (buf : List Byte) (w : Nat) (hw : w < 2 ^ 32) :
    ∀ cnt pos hash, pos < 2 ^ 32 → (buf.length < 2 ^ 32 → pos + w ≤ buf.length) →
      (pos + w) % 2 ^ 32 ≤ buf.length % 2 ^ 32 →
      ((pos + w) % 2 ^ 32 + cnt ≤ buf.length % 2 ^ 32 ∧
        ∃ pos1 hash1, bulkInner buf (buf.length % 2 ^ 32) w cnt pos hash
            = .completed pos1 hash1 ∧
          pos1 < 2 ^ 32 ∧ (buf.length < 2 ^ 32 → pos1 + w ≤ buf.length) ∧
          (pos1 + w) % 2 ^ 32 = (pos + w) % 2 ^ 32 + cnt) ∨
      ((pos + w) % 2 ^ 32 + cnt > buf.length % 2 ^ 32 ∧
        bulkInner buf (buf.length % 2 ^ 32) w cnt pos hash = .returned) := by
  intro cnt
  induction cnt with
  | zero =>
    intro pos hash hp hl hv
    exact Or.inl ⟨by omega, pos, hash, rfl, hp, hl, rfl⟩
  | succ cnt ih =>
    intro pos hash hp hl hv
    by_cases hge : (pos + w) % 2 ^ 32 ≥ buf.length % 2 ^ 32
    · right
      exact ⟨by omega, by simp only [bulkInner, hge, if_true]⟩
    · have hn : buf.length % 2 ^ 32 ≤ buf.length := Nat.mod_le _ _
      have hpl : pos < buf.length := by
        by_cases hb : buf.length < 2 ^ 32
        · have := hl hb
          have := Nat.mod_eq_of_lt hb
          omega
        · omega
      obtain ⟨out, h1⟩ := index_some_of_lt buf pos hpl
      obtain ⟨inb, h2⟩ := index_some_of_lt buf ((pos + w) % 2 ^ 32) (by omega)
      have hrec := ih ((pos + 1) % 2 ^ 32)
        (rotateLeft64 hash 1 ^^^ rotateLeft64 (tableAt out) w ^^^ tableAt inb)
        (Nat.mod_lt _ (by decide))
        (fun hb => by
          have := hl hb
          have := Nat.mod_eq_of_lt hb
          omega)
        (by omega)
      have e : bulkInner buf (buf.length % 2 ^ 32) w (cnt + 1) pos hash
          = bulkInner buf (buf.length % 2 ^ 32) w cnt ((pos + 1) % 2 ^ 32)
              (rotateLeft64 hash 1 ^^^ rotateLeft64 (tableAt out) w ^^^ tableAt inb) := by
        simp only [bulkInner, hge, if_false, h1, h2]
      rw [e]
      rcases hrec with ⟨hle, pos1, hash1, hr, hp1, hl1, hv1⟩ | ⟨hgt, hr⟩
      · exact Or.inl ⟨by omega, pos1, hash1, hr, hp1, hl1, by omega⟩
      · exact Or.inr ⟨by omega, hr⟩

theorem bulkOuter_count (buf : List Byte) (w stride : Nat) (hw : w < 2 ^ 32)
    (hs : 0 < stride) :
    ∀ fuel pos hash acc, pos < 2 ^ 32 → (buf.length < 2 ^ 32 → pos + w ≤ buf.length) →
      2 ^ 32 ≤ fuel + (pos + w) % 2 ^ 32 →
      ∃ l, bulkOuter buf (buf.length % 2 ^ 32) w stride fuel pos hash acc = .ret (acc ++ l) ∧
        l.length = if (pos + w) % 2 ^ 32 > buf.length % 2 ^ 32 then 0
          else (buf.length % 2 ^ 32 - (pos + w) % 2 ^ 32) / stride + 1 := by
  intro fuel
  induction fuel with
  | zero =>
    intro pos hash acc _ _ hf
    have : (pos + w) % 2 ^ 32 < 2 ^ 32 := Nat.mod_lt _ (by decide)
    omega
  | succ fuel ih =>
    intro pos hash acc hp hl hf
    by_cases hgt : (pos + w) % 2 ^ 32 > buf.length % 2 ^ 32
    · refine ⟨[], ?_, ?_⟩
      · simp only [bulkOuter, hgt, if_true, List.append_nil]
      · rw [if_pos hgt]; rfl
    · rw [if_neg hgt]
      rcases bulkInner_exit buf w hw stride pos hash hp hl (by omega) with
        ⟨hle, pos1, hash1, hr, hp1, hl1, hv1⟩ | ⟨hover, hr⟩
      · obtain ⟨l, hrec, hcount⟩ := ih pos1 hash1 (acc ++ [hash]) hp1 hl1 (by omega)
        refine ⟨hash :: l, ?_, ?_⟩
        · simp only [bulkOuter, hgt, if_false, hr, hrec, List.append_assoc,
            List.singleton_append]
        · have hng : ¬ ((pos1 + w) % 2 ^ 32 > buf.length % 2 ^ 32) := by omega
          rw [if_neg hng] at hcount
          rw [List.length_cons, hcount, hv1]
          have e : buf.length % 2 ^ 32 - (pos + w) % 2 ^ 32
              = (buf.length % 2 ^ 32 - ((pos + w) % 2 ^ 32 + stride)) + stride := by omega
          rw [e, Nat.add_div_right _ hs]
      · refine ⟨[hash], ?_, ?_⟩
        · simp only [bulkOuter, hgt, if_false, hr]
        · have hdiv : (buf.length % 2 ^ 32 - (pos + w) % 2 ^ 32) / stride = 0 :=
            Nat.div_eq_of_lt (by omega)
          rw [hdiv]; rfl

/-! ## Rolling composes -/

theorem rollStep_some (buf : List Byte) (w p hash : Nat) (hlen : buf.length < 2 ^ 32)
    (h : p + w < buf.length) :
    ∃ hash1, rollStep ⟨buf, w, p, hash⟩ = some ⟨buf, w, p + 1, hash1⟩ := by
  obtain ⟨out, h1⟩ := index_some_of_lt buf p (by omega)
  obtain ⟨inb, h2⟩ := index_some_of_lt buf (p + w) h
  have m1 : (p + w) % 2 ^ 32 = p + w := Nat.mod_eq_of_lt (by omega)
  have m2 : (p + 1) % 2 ^ 32 = p + 1 := Nat.mod_eq_of_lt (by omega)
  exact ⟨rotateLeft64 hash 1 ^^^ rotateLeft64 (tableAt out) w ^^^ tableAt inb,
    by simp only [rollStep, h1, m1, h2, m2]⟩

theorem rollLoop_some (buf : List Byte) (w : Nat) (hlen : buf.length < 2 ^ 32) :
    ∀ cnt p hash, p + cnt + w ≤ buf.length →
      ∃ hash1, rollLoop cnt ⟨buf, w, p, hash⟩ = .ret () ⟨buf, w, p + cnt, hash1⟩ := by
  intro cnt
  induction cnt with
  | zero => intro p hash _; exact ⟨hash, rfl⟩
  | succ cnt ih =>
    intro p hash hp
    obtain ⟨hash1, hs⟩ := rollStep_some buf w p hash hlen (by omega)
    obtain ⟨hash2, hrec⟩ := ih (p + 1) hash1 (by omega)
    have e : p + 1 + cnt = p + (cnt + 1) := by omega
    rw [e] at hrec
    exact ⟨hash2, by simp only [rollLoop, hs, hrec]⟩

theorem rollLoop_add : ∀ (a b : Nat) (h h1 : Hasher), rollLoop a h = .ret () h1 →
    rollLoop (a + b) h = rollLoop b h1 := by
  intro a
  induction a with
  | zero =>
    intro b h h1 hr
    simp only [rollLoop] at hr
    cases hr
    rw [Nat.zero_add]
  | succ a ih =>
    intro b h h1 hr
    have e : a + 1 + b = (a + b) + 1 := by omega
    rw [e]
    cases hs : rollStep h with
    | none =>
      simp only [rollLoop, hs] at hr
      cases hr
    | some h2 =>
      simp only [rollLoop, hs] at hr ⊢
      exact ih b h2 h1 hr

theorem Roll_some (buf : List Byte) (w p hash step : Nat) (hlen : buf.length < 2 ^ 32)
    (h : p + step + w ≤ buf.length) :
    ∃ hash1, rollLoop step ⟨buf, w, p, hash⟩ = .ret () ⟨buf, w, p + step, hash1⟩ ∧
      Roll ⟨buf, w, p, hash⟩ step = .ret (hash1, none) ⟨buf, w, p + step, hash1⟩ := by
  obtain ⟨hash1, hl⟩ := rollLoop_some buf w hlen step p hash h
  have m1 : (p + step + w) % 2 ^ 32 = p + step + w := Nat.mod_eq_of_lt (by omega)
  have m2 : buf.length % 2 ^ 32 = buf.length := Nat.mod_eq_of_lt hlen
  have hc : ¬ (p + step + w > buf.length) := by omega
  exact ⟨hash1, hl, by simp only [Roll, m1, m2, hc, if_false, hl]⟩

/-- C20 (amended): for every hasher over a buffer shorter than `2^32` bytes,
at position `p`, and all steps `a`, `b` with `p + a + b + windowSize ≤
len(buf)`, `Roll(a)` and then `Roll(b)` both succeed, and the second call
returns the same value and leaves the same hasher (position and hash) as a
single `Roll(a + b)` from the original state; and `Roll(0)` succeeds, returns
the current `Sum64()` and changes nothing. -/
theorem roll_additive (h : Hasher) (a b : Nat) (hlen : h.buf.length < 2 ^ 32)
    (hfit : h.position + a + b + h.windowSize ≤ h.buf.length) :
    ∃ v1 h1 v2 h2, Roll h a = .ret (v1, none) h1 ∧ Roll h1 b = .ret (v2, none) h2 ∧
      Roll h (a + b) = .ret (v2, none) h2 ∧
      Position h2 = h.position + a + b ∧
      Roll h 0 = .ret (Sum64 h, none) h := by
  obtain ⟨buf, w, p, hash⟩ := h
  simp only at hlen hfit
  obtain ⟨hash1, hl1, hr1⟩ := Roll_some buf w p hash a hlen (by omega)
  obtain ⟨hash2, hl2, hr2⟩ := Roll_some buf w (p + a) hash1 b hlen (by omega)
  obtain ⟨hash3, hl3, hr3⟩ := Roll_some buf w p hash (a + b) hlen (by omega)
  obtain ⟨hash0, hl0, hr0⟩ := Roll_some buf w p hash 0 hlen (by omega)
  have hadd := rollLoop_add a b _ _ hl1
  rw [hl3, hl2] at hadd
  have e3 : hash3 = hash2 := (Hasher.mk.inj (Outcome.ret.inj hadd).2).2.2.2
  have e0 : hash0 = hash := by
    simp only [rollLoop] at hl0
    cases hl0
    rfl
  subst e3 e0
  refine ⟨hash1, _, hash3, _, hr1, hr2, ?_, rfl, hr0⟩
  rw [hr3, Nat.add_assoc]

/-- C20, witness: the hasher over "abcdefghijk" with window 3 at position 1,
with `a = 2` and `b = 4`. -/
theorem roll_additive_witness :
    1 + 2 + 4 + 3 ≤ ([97, 98, 99, 100, 101, 102, 103, 104, 105, 106, 107] : List Byte).length ∧
    ∃ v1 h1 v2 h2,
      Roll ⟨[97, 98, 99, 100, 101, 102, 103, 104, 105, 106, 107], 3, 1, Hash [98, 99, 100]⟩ 2
        = .ret (v1, none) h1 ∧
      Roll h1 4 = .ret (v2, none) h2 ∧
      Roll ⟨[97, 98, 99, 100, 101, 102, 103, 104, 105, 106, 107], 3, 1, Hash [98, 99, 100]⟩
          (2 + 4) = .ret (v2, none) h2 ∧
      Position h2 = 1 + 2 + 4 ∧
      Roll ⟨[97, 98, 99, 100, 101, 102, 103, 104, 105, 106, 107], 3, 1, Hash [98, 99, 100]⟩ 0
        = .ret (Sum64 ⟨[97, 98, 99, 100, 101, 102, 103, 104, 105, 106, 107], 3, 1,
            Hash [98, 99, 100]⟩, none)
          ⟨[97, 98, 99, 100, 101, 102, 103, 104, 105, 106, 107], 3, 1, Hash [98, 99, 100]⟩ :=
  ⟨by decide,
    roll_additive ⟨[97, 98, 99, 100, 101, 102, 103, 104, 105, 106, 107], 3, 1,
      Hash [98, 99, 100]⟩ 2 4 (by decide) (by decide)⟩

/-- On a buffer of exactly `2^32` bytes the first `Roll(1)` of the hasher of
window 0 is refused although one more window fits. -/
theorem Roll_additive_long_buffer (b : List Byte) (hb : b.length = 2 ^ 32) :
    0 + 1 + 0 + 0 ≤ b.length ∧
    Roll ⟨b, 0, 0, 0⟩ 1 = .ret (0, some .ErrIllegalRoll) ⟨b, 0, 0, 0⟩ :=
  ⟨by omega, (Roll_long_buffer b hb).2.2.2⟩

/-- C20, counterexample to the claim as stated: over a buffer of `2^32` zero
bytes, the hasher of window 0 at position 0 and the steps `a = 1`, `b = 0`
satisfy `p + a + b + windowSize ≤ len(buf)`, yet `Roll(a)` returns
`ErrIllegalRoll`. -/
theorem roll_additive_fails_on_long_buffer :
    0 + 1 + 0 + 0 ≤ (List.replicate (2 ^ 32) (0 : Byte)).length ∧
    Roll ⟨List.replicate (2 ^ 32) 0, 0, 0, 0⟩ 1
      = .ret (0, some .ErrIllegalRoll) ⟨List.replicate (2 ^ 32) 0, 0, 0, 0⟩ :=
  Roll_additive_long_buffer _ (List.length_replicate _ _)

/-! ## The cgo bulk loop against the portable one -/

theorem cInt_of_lt (x : Nat) (h : x < 2 ^ 31) : cInt x = (x : Int) := by
  have m : x % 2 ^ 32 = x := Nat.mod_eq_of_lt (by omega)
  unfold cInt
  rw [m, if_pos h]

theorem cAdd_natCast (a b : Nat) (h : a + b < 2 ^ 31) :
    cAdd (a : Int) (b : Int) = some ((a + b : Nat) : Int) := by
  unfold cAdd
  rw [if_pos (by omega)]
  simp

theorem cRead_natCast (buf : List Byte) (i : Nat) : cRead buf (i : Int) = index buf i := by
  unfold cRead
  rw [if_pos (by omega)]
  simp

theorem cRotate_natCast (x w : Nat) (hw1 : 1 ≤ w) (hw2 : w ≤ 63) :
    cRotate x (w : Int) = some (rotateLeft64 x w) := by
  have m : w % 64 = w := Nat.mod_eq_of_lt (by omega)
  have e : ((64 : Int) - (w : Int)).toNat = 64 - w := by omega
  unfold cRotate rotateLeft64
  rw [if_pos (by omega)]
  simp only [Int.toNat_ofNat, e, m]

theorem rotate_one (x : Nat) : ((x <<< 1) % 2 ^ 64) ||| (x >>> 63) = rotateLeft64 x 1 := by
  have m : 1 % 64 = 1 := by decide
  have e : 64 - 1 = 63 := by decide
  unfold rotateLeft64
  simp only [m, e]

theorem cInner_eq (buf : List Byte) (w : Nat) (hw1 : 1 ≤ w) (hw2 : w ≤ 63)
    (hlen : buf.length < 2 ^ 31) :
    ∀ cnt pos hash, pos + w ≤ buf.length →
      cInner buf (buf.length : Int) (w : Int) cnt (pos : Int) hash
        = (bulkInner buf buf.length w cnt pos hash).toC := by
  intro cnt
  induction cnt with
  | zero => intro pos hash _; rfl
  | succ cnt ih =>
    intro pos hash hp
    have m1 : (pos + w) % 2 ^ 32 = pos + w := Nat.mod_eq_of_lt (by omega)
    have ha := cAdd_natCast pos w (by omega)
    by_cases hge : pos + w ≥ buf.length
    · have hgeI : ((pos + w : Nat) : Int) ≥ (buf.length : Int) := by omega
      rw [cInner, bulkInner, m1, if_pos hge]
      simp only [ha]
      rw [if_pos hgeI]
      rfl
    · have hgeI : ¬ ((pos + w : Nat) : Int) ≥ (buf.length : Int) := by omega
      obtain ⟨out, h1⟩ := index_some_of_lt buf pos (by omega)
      obtain ⟨inb, h2⟩ := index_some_of_lt buf (pos + w) (by omega)
      have m2 : (pos + 1) % 2 ^ 32 = pos + 1 := Nat.mod_eq_of_lt (by omega)
      have ha1 : cAdd (pos : Int) 1 = some ((pos + 1 : Nat) : Int) := by
        unfold cAdd
        rw [if_pos (by omega)]
        simp
      have hrec := ih (pos + 1) (rotateLeft64 hash 1 ^^^ rotateLeft64 (tableAt out) w
        ^^^ tableAt inb) (by omega)
      rw [cInner, bulkInner, m1, if_neg hge]
      simp only [ha, ha1]
      rw [if_neg hgeI]
      simp only [cRead_natCast, h1, h2, cRotate_natCast _ w hw1 hw2, rotate_one, m2]
      exact hrec

theorem bulkInner_exit_small (buf : List Byte) (w : Nat) (hlen : buf.length < 2 ^ 32) :
    ∀ cnt pos hash, pos + w ≤ buf.length →
      (pos + cnt + w ≤ buf.length ∧
        ∃ hash1, bulkInner buf buf.length w cnt pos hash = .completed (pos + cnt) hash1) ∨
      (pos + cnt + w > buf.length ∧ bulkInner buf buf.length w cnt pos hash = .returned) := by
  intro cnt
  induction cnt with
  | zero => intro pos hash hp; exact Or.inl ⟨by omega, hash, rfl⟩
  | succ cnt ih =>
    intro pos hash hp
    have m1 : (pos + w) % 2 ^ 32 = pos + w := Nat.mod_eq_of_lt (by omega)
    by_cases hge : pos + w ≥ buf.length
    · right
      refine ⟨by omega, ?_⟩
      rw [bulkInner, m1, if_pos hge]
    · obtain ⟨out, h1⟩ := index_some_of_lt buf pos (by omega)
      obtain ⟨inb, h2⟩ := index_some_of_lt buf (pos + w) (by omega)
      have m2 : (pos + 1) % 2 ^ 32 = pos + 1 := Nat.mod_eq_of_lt (by omega)
      have e : bulkInner buf buf.length w (cnt + 1) pos hash
          = bulkInner buf buf.length w cnt (pos + 1)
              (rotateLeft64 hash 1 ^^^ rotateLeft64 (tableAt out) w ^^^ tableAt inb) := by
        rw [bulkInner, m1, if_neg hge]
        simp only [h1, h2, m2]
      rw [e]
      have e2 : pos + (cnt + 1) = pos + 1 + cnt := by omega
      rw [e2]
      exact ih (pos + 1) _ (by omega)

theorem set_length_append (acc : List Nat) (r x : Nat) (rest : List Nat) :
    (acc ++ r :: rest).set acc.length x = acc ++ x :: rest := by
  induction acc with
  | nil => rfl
  | cons a acc ih => simp only [List.cons_append, List.length_cons, List.set_cons_succ, ih]

theorem cOuter_eq (buf : List Byte) (w stride : Nat) (hw1 : 1 ≤ w) (hw2 : w ≤ 63)
    (hlen : buf.length < 2 ^ 31) (hs1 : 1 ≤ stride) :
    ∀ fuel pos hash acc rest, pos + w ≤ buf.length → buf.length - w - pos < fuel →
      rest.length = (buf.length - w - pos) / stride + 1 →
      acc.length + rest.length < 2 ^ 31 →
      ∃ l, bulkOuter buf buf.length w stride fuel pos hash acc = .ret (acc ++ l) ∧
        cOuter buf (buf.length : Int) (w : Int) (stride : Int) fuel (pos : Int) hash
          (acc.length : Int) (acc ++ rest) = .ret (acc ++ l) := by
  intro fuel
  induction fuel with
  | zero => intro pos hash acc rest _ hf; exact absurd hf (Nat.not_lt_zero _)
  | succ fuel ih =>
    intro pos hash acc rest hp hf hrest hbound
    obtain ⟨r, rest1, rfl⟩ : ∃ r rest1, rest = r :: rest1 := by
      cases rest with
      | nil => simp at hrest
      | cons r rest1 => exact ⟨r, rest1, rfl⟩
    simp only [List.length_cons] at hrest hbound
    have m1 : (pos + w) % 2 ^ 32 = pos + w := Nat.mod_eq_of_lt (by omega)
    have hgt : ¬ (pos + w > buf.length) := by omega
    have ha := cAdd_natCast pos w (by omega)
    have hc1 : cAdd (acc.length : Int) 1 = some ((acc.length + 1 : Nat) : Int) := by
      unfold cAdd
      rw [if_pos (by omega)]
      simp
    have hle : ((pos + w : Nat) : Int) ≤ (buf.length : Int) := by omega
    have hcount : 0 ≤ (acc.length : Int) ∧
        (acc.length : Int).toNat < (acc ++ r :: rest1).length := by
      refine ⟨by omega, ?_⟩
      simp
    have hin := cInner_eq buf w hw1 hw2 hlen stride pos hash hp
    have hC : cOuter buf (buf.length : Int) (w : Int) (stride : Int) (fuel + 1) (pos : Int)
        hash (acc.length : Int) (acc ++ r :: rest1)
        = match (bulkInner buf buf.length w stride pos hash).toC with
          | .returned => .ret (acc ++ hash :: rest1)
          | .undefined => .undefined
          | .completed pos1 hash1 =>
            cOuter buf (buf.length : Int) (w : Int) (stride : Int) fuel pos1 hash1
              ((acc.length + 1 : Nat) : Int) (acc ++ hash :: rest1) := by
      rw [cOuter]
      simp only [ha, hc1]
      rw [if_pos hle, if_pos hcount]
      simp only [Int.toNat_ofNat, set_length_append, hin]
    have hP : bulkOuter buf buf.length w stride (fuel + 1) pos hash acc
        = match bulkInner buf buf.length w stride pos hash with
          | .returned => .ret (acc ++ [hash])
          | .panic => .panic
          | .completed pos1 hash1 =>
            bulkOuter buf buf.length w stride fuel pos1 hash1 (acc ++ [hash]) := by
      rw [bulkOuter, m1, if_neg hgt]
    rw [hC, hP]
    rcases bulkInner_exit_small buf w (by omega) stride pos hash hp with
      ⟨hfit, hash1, hr⟩ | ⟨hover, hr⟩
    · have hdiv : (buf.length - w - pos) / stride
          = (buf.length - w - (pos + stride)) / stride + 1 := by
        have e : buf.length - w - pos = (buf.length - w - (pos + stride)) + stride := by omega
        rw [e, Nat.add_div_right _ (by omega)]
      obtain ⟨l, hl1, hl2⟩ := ih (pos + stride) hash1 (acc ++ [hash]) rest1 (by omega)
        (by omega) (by omega) (by simp only [List.length_append, List.length_singleton]; omega)
      simp only [List.length_append, List.length_singleton, List.append_assoc,
        List.singleton_append] at hl1 hl2
      refine ⟨hash :: l, ?_, ?_⟩
      · rw [hr]
        exact hl1
      · rw [hr]
        exact hl2
    · have hdiv : (buf.length - w - pos) / stride = 0 := Nat.div_eq_of_lt (by omega)
      have hnil : rest1 = [] := by
        cases rest1 with
        | nil => rfl
        | cons _ _ => simp only [List.length_cons] at hrest; omega
      subst hnil
      refine ⟨[hash], ?_, ?_⟩
      · rw [hr]
      · rw [hr]
        rfl

theorem bulkCapacity_eq (n w start stride : Nat) (hn : n < 2 ^ 32 - 1)
    (hfit : start + w ≤ n) :
    bulkCapacity n w start stride = (n - w - start) / stride + 1 := by
  unfold bulkCapacity
  have e1 : ((n + 2 ^ 32 - w) % 2 ^ 32 + 2 ^ 32 - start) % 2 ^ 32 = n - w - start := by omega
  have hd : (n - w - start) / stride ≤ n - w - start := Nat.div_le_self _ _
  rw [e1, Nat.mod_eq_of_lt (by omega)]

/-- Where the C code is defined the two builds agree: for every buffer
shorter than `2^31` bytes, every start position and `windowSize` with
`1 ≤ windowSize ≤ 63` and `start + windowSize ≤ len(buffer)`, every stride with
`1 ≤ stride < 2^31` and every initial hash, the cgo `bulkRoll` and the portable
`bulkRoll` return the identical sequence of hashes; for `windowSize = 0` the
guard of the cgo `bulkRoll` returns the nil slice. -/
theorem bulkRollCgo_agrees (buf : List Byte) (start windowSize stride initialHash : Nat)
    (hw1 : 1 ≤ windowSize) (hw2 : windowSize ≤ 63) (hlen : buf.length < 2 ^ 31)
    (hfit : start + windowSize ≤ buf.length) (hs1 : 1 ≤ stride) (hs2 : stride < 2 ^ 31) :
    (∃ hashes, bulkRoll buf start windowSize stride initialHash = .ret hashes ∧
      bulkRollCgo buf start windowSize stride initialHash = .ret hashes) ∧
    bulkRollCgo buf start 0 stride initialHash = .ret [] := by
  constructor
  · have m : buf.length % 2 ^ 32 = buf.length := Nat.mod_eq_of_lt (by omega)
    have m2 : (start + windowSize) % 2 ^ 32 = start + windowSize :=
      Nat.mod_eq_of_lt (by omega)
    have hcap := bulkCapacity_eq buf.length windowSize start stride (by omega) hfit
    have hd : (buf.length - windowSize - start) / stride ≤ buf.length - windowSize - start :=
      Nat.div_le_self _ _
    obtain ⟨l, hl1, hl2⟩ := cOuter_eq buf windowSize stride hw1 hw2 hlen hs1 (2 ^ 32) start
      initialHash [] (List.replicate ((buf.length - windowSize - start) / stride + 1) 0) hfit
      (by omega) (List.length_replicate _ _)
      (by rw [List.length_replicate, List.length_nil]; omega)
    simp only [List.nil_append, List.length_nil, Nat.cast_zero] at hl1 hl2
    refine ⟨l, ?_, ?_⟩
    · have hs0 : stride ≠ 0 := by omega
      unfold bulkRoll
      rw [if_neg hs0, m]
      exact hl1
    · have hg : ¬ (stride = 0 ∨ windowSize = 0 ∨ start + windowSize > buf.length) := by omega
      have hb : ¬ buf.length = 0 := by omega
      have hc0 : ¬ (buf.length - windowSize - start) / stride + 1 = 0 := Nat.succ_ne_zero _
      unfold bulkRollCgo
      simp only [m, m2, hcap]
      rw [if_neg hg, if_neg hb, if_neg hc0, cInt_of_lt _ hlen, cInt_of_lt _ (by omega),
        cInt_of_lt _ hs2, cInt_of_lt _ (by omega)]
      exact hl2
  · unfold bulkRollCgo
    rw [if_pos (Or.inr (Or.inl rfl))]

/-! ## Concatenation and the period of the rotation -/

theorem hashBuf_append (x y : List Byte) :
    hashBuf (x ++ y) = rotateLeft64 (hashBuf x) y.length ^^^ hashBuf y := by
  induction y using List.reverseRecOn with
  | nil =>
    rw [List.append_nil, List.length_nil, rotateLeft64_zero_right (hashBuf_lt x), hashBuf_nil,
      Nat.xor_zero]
  | append_singleton ys c ih =>
    rw [← List.append_assoc, hashBuf_append_singleton, ih, hashBuf_append_singleton,
      rotateLeft64_xor (rotateLeft64_lt (hashBuf_lt x) _) (hashBuf_lt ys),
      rotateLeft64_rotateLeft64 (hashBuf_lt x), List.length_append, List.length_singleton,
      Nat.xor_assoc]

theorem rotateLeft64_64 {x : Nat} (hx : x < 2 ^ 64) : rotateLeft64 x 64 = x := by
  have h := rotateLeft64_mod x 64
  rw [← h]
  exact rotateLeft64_zero_right hx

/-- C21: for all byte sequences `x` and `y`,
`Hash(x ++ y) = rotateLeft64(Hash(x), len(y) mod 64) XOR Hash(y)`; in
particular, for every byte `b`,
`Hash(x ++ [b]) = rotateLeft64(Hash(x), 1) XOR table[b]`. -/
theorem hash_concat (x y : List Byte) :
    Hash (x ++ y) = rotateLeft64 (Hash x) (y.length % 64) ^^^ Hash y ∧
    ∀ b : Byte, Hash (x ++ [b]) = rotateLeft64 (Hash x) 1 ^^^ tableAt b := by
  unfold Hash
  exact ⟨by rw [rotateLeft64_mod]; exact hashBuf_append x y,
    fun b => hashBuf_append_singleton x b⟩

/-- Two different byte sequences of length 128 with the same hash: 128 zero
bytes and 128 one bytes. -/
theorem hash_collision_128 :
    ∃ p q : List Byte, p.length = 128 ∧ q.length = 128 ∧ p ≠ q ∧ Hash p = Hash q := by
  refine ⟨List.replicate 64 0 ++ List.replicate 64 0,
    List.replicate 64 1 ++ List.replicate 64 1, ?_, ?_, ?_, ?_⟩
  · rw [List.length_append, List.length_replicate]
  · rw [List.length_append, List.length_replicate]
  · intro h
    have h2 := congrArg List.head? h
    simp [List.replicate] at h2
  · unfold Hash
    rw [hashBuf_append, hashBuf_append, List.length_replicate, List.length_replicate,
      rotateLeft64_64 (hashBuf_lt _), rotateLeft64_64 (hashBuf_lt _), Nat.xor_self,
      Nat.xor_self]

/-- C22: for every byte sequence `x` of length exactly 64, `Hash(x ++ x) = 0`,
the value of `Hash` on the empty sequence: the first copy of `x` is rotated by
64 bits, which is the identity, so the contributions of bytes 64 positions
apart cancel under XOR. Hence `Hash` is not injective on byte sequences of
length 128. -/
theorem hash_period_64 (x : List Byte) (hx : x.length = 64) :
    Hash (x ++ x) = 0 ∧ Hash (x ++ x) = Hash [] ∧
    ∃ p q : List Byte, p.length = 128 ∧ q.length = 128 ∧ p ≠ q ∧ Hash p = Hash q := by
  have h : Hash (x ++ x) = 0 := by
    unfold Hash
    rw [hashBuf_append, hx, rotateLeft64_64 (hashBuf_lt x), Nat.xor_self]
  exact ⟨h, by rw [h]; rfl, hash_collision_128⟩

/-- C22, witness: the 64 bytes 0, 1, ..., 63. -/
theorem hash_period_64_witness :
    ((List.range 64).map byteOf).length = 64 ∧
    Hash ((List.range 64).map byteOf ++ (List.range 64).map byteOf) = 0 ∧
    Hash ((List.range 64).map byteOf ++ (List.range 64).map byteOf) = Hash [] ∧
    ∃ p q : List Byte, p.length = 128 ∧ q.length = 128 ∧ p ≠ q ∧ Hash p = Hash q :=
  ⟨by simp, hash_period_64 ((List.range 64).map byteOf) (by simp)⟩

/-! ## `BulkRoll` in the two builds -/

theorem bulkRoll_ok (buf : List Byte) (w p stride : Nat) (hlen : buf.length < 2 ^ 32)
    (hs : 0 < stride) (hp : p + w ≤ buf.length) :
    bulkRoll buf p w stride (Hash (slice buf p (p + w)))
      = .ret ((List.range ((buf.length - w - p) / stride + 1)).map
          (fun k => Hash (slice buf (p + k * stride) (p + k * stride + w)))) := by
  have m : buf.length % 2 ^ 32 = buf.length := Nat.mod_eq_of_lt hlen
  have hs0 : stride ≠ 0 := by omega
  have h := bulkOuter_ok buf w stride hlen hs (2 ^ 32) p [] hp (by omega)
  simp only [bulkRoll, hs0, if_false, m, h, List.nil_append]

/-- C5 (amended): for every hasher reachable from `New` over a buffer shorter
than `2^32` bytes (position `p`, window `w`, buffer length `n`) and every
`stride ≥ 1`, `BulkRoll(stride)` in the build without cgo returns without error
a sequence of exactly `(n - w - p) / stride + 1` values whose `k`-th element is
`Hash(buf[p + k*stride : p + k*stride + w])`; its first element is the current
`Sum64()`. `BulkRoll(stride)` in the cgo build returns the same sequence when
`1 ≤ w ≤ 63`, `n < 2^31` and `stride < 2^31`. The receiver is unchanged in both
builds. -/
theorem bulk_roll_windows (buf : List Byte) (w : Nat) (h : Hasher)
    (hr : Reachable buf w h) (hlen : buf.length < 2 ^ 32) (stride : Nat) (hs : 1 ≤ stride) :
    ∃ hashes, BulkRoll h stride = .ret (hashes, none) h ∧
      hashes = (List.range ((buf.length - w - h.position) / stride + 1)).map
        (fun k => Hash (slice buf (h.position + k * stride) (h.position + k * stride + w))) ∧
      hashes.length = (buf.length - w - h.position) / stride + 1 ∧
      hashes.head? = some (Sum64 h) ∧
      h.position + w ≤ buf.length ∧
      (1 ≤ w → w ≤ 63 → buf.length < 2 ^ 31 → stride < 2 ^ 31 →
        BulkRollCgo h stride = .ret (hashes, none) h) := by
  obtain ⟨hb, hw0, _, _, hinv⟩ := reachable_inv buf w h hr
  obtain ⟨hpw, hh⟩ := hinv hlen
  obtain ⟨b, w0, p, hash⟩ := h
  simp only at hb hw0 hpw hh
  subst hb hw0 hh
  refine ⟨_, BulkRoll_ok b w0 p stride hlen hs hpw, rfl, by simp, ?_, hpw, ?_⟩
  · rw [List.range_succ_eq_map]
    simp [Sum64]
  · intro hw1 hw2 hl31 hs31
    obtain ⟨l, hl1, hl2⟩ :=
      (bulkRollCgo_agrees b p w0 stride (Hash (slice b p (p + w0))) hw1 hw2 hl31 hpw hs
        hs31).1
    rw [bulkRoll_ok b w0 p stride hlen hs hpw] at hl1
    have hl : l = (List.range ((b.length - w0 - p) / stride + 1)).map
        (fun k => Hash (slice b (p + k * stride) (p + k * stride + w0))) :=
      (Exec.ret.inj hl1).symm
    subst hl
    have hs0 : stride ≠ 0 := by omega
    unfold BulkRollCgo
    rw [if_neg hs0]
    simp only [hl2]

/-- C5, witness: the hasher `New("abcdefghijkx", 3)` returns, with stride 2. -/
theorem bulk_roll_windows_witness :
    ([97, 98, 99, 100, 101, 102, 103, 104, 105, 106, 107, 120] : List Byte).length < 2 ^ 32 ∧
    1 ≤ 2 ∧
    ∃ hashes, BulkRoll ⟨[97, 98, 99, 100, 101, 102, 103, 104, 105, 106, 107, 120], 3, 0,
          Hash [97, 98, 99]⟩ 2
        = .ret (hashes, none) ⟨[97, 98, 99, 100, 101, 102, 103, 104, 105, 106, 107, 120], 3, 0,
          Hash [97, 98, 99]⟩ ∧
      hashes = (List.range
          ((([97, 98, 99, 100, 101, 102, 103, 104, 105, 106, 107, 120] : List Byte).length
            - 3 - 0) / 2 + 1)).map
        (fun k => Hash (slice [97, 98, 99, 100, 101, 102, 103, 104, 105, 106, 107, 120]
          (0 + k * 2) (0 + k * 2 + 3))) ∧
      hashes.length
        = (([97, 98, 99, 100, 101, 102, 103, 104, 105, 106, 107, 120] : List Byte).length
            - 3 - 0) / 2 + 1 ∧
      hashes.head? = some (Sum64 ⟨[97, 98, 99, 100, 101, 102, 103, 104, 105, 106, 107, 120],
        3, 0, Hash [97, 98, 99]⟩) ∧
      0 + 3 ≤ ([97, 98, 99, 100, 101, 102, 103, 104, 105, 106, 107, 120] : List Byte).length ∧
      (1 ≤ 3 → 3 ≤ 63 →
        ([97, 98, 99, 100, 101, 102, 103, 104, 105, 106, 107, 120] : List Byte).length < 2 ^ 31 →
        2 < 2 ^ 31 →
        BulkRollCgo ⟨[97, 98, 99, 100, 101, 102, 103, 104, 105, 106, 107, 120], 3, 0,
            Hash [97, 98, 99]⟩ 2
          = .ret (hashes, none) ⟨[97, 98, 99, 100, 101, 102, 103, 104, 105, 106, 107, 120], 3,
            0, Hash [97, 98, 99]⟩) :=
  ⟨by decide, by decide,
    bulk_roll_windows [97, 98, 99, 100, 101, 102, 103, 104, 105, 106, 107, 120] 3
      ⟨[97, 98, 99, 100, 101, 102, 103, 104, 105, 106, 107, 120], 3, 0, Hash [97, 98, 99]⟩
      (Reachable.new _ (by decide) (by decide)) (by decide) 2 (by decide)⟩

/-- C8, the code at the failing input: on the hasher `New("abc", 1)` returns,
the stride `2^31` is not zero, and `BulkRoll(2^31)` in the cgo build does not
return a sequence: `C.int(stride)` is `-2^31`, the inner loop of the C function
never runs, `pos` never advances and the outer loop writes past the one-element
output array. The build without cgo returns the one hash `Hash("a")`. -/
theorem bulk_roll_cgo_large_stride :
    New [97, 98, 99] 1 = some (some ⟨[97, 98, 99], 1, 0, Hash [97]⟩, none) ∧
    (2147483648 : Nat) ≠ 0 ∧ 2147483648 < 2 ^ 32 ∧
    cInt 2147483648 = -2147483648 ∧
    BulkRollCgo ⟨[97, 98, 99], 1, 0, Hash [97]⟩ 2147483648 = .undefined ∧
    BulkRoll ⟨[97, 98, 99], 1, 0, Hash [97]⟩ 2147483648
      = .ret ([Hash [97]], none) ⟨[97, 98, 99], 1, 0, Hash [97]⟩ := by
  decide

/-- C14, the code at the failing inputs. On the buffer "abc" with start 0,
`windowSize = 0` and stride 1 the portable `bulkRoll` returns four hashes
(`[0, 0, 0, 0]` from initial hash 0, `[5, 10, 20, 40]` from initial hash 5) and
the cgo `bulkRoll` returns the nil slice. On the same buffer with
`windowSize = 1` and stride `2^31` the portable `bulkRoll` returns the initial
hash and the cgo `bulkRoll` writes past its output array. -/
theorem bulk_roll_cgo_diverges :
    New [97, 98, 99] 0 = some (some ⟨[97, 98, 99], 0, 0, 0⟩, none) ∧
    0 + 0 ≤ ([97, 98, 99] : List Byte).length ∧
    bulkRoll [97, 98, 99] 0 0 1 0 = .ret [0, 0, 0, 0] ∧
    bulkRollCgo [97, 98, 99] 0 0 1 0 = .ret [] ∧
    bulkRoll [97, 98, 99] 0 0 1 5 = .ret [5, 10, 20, 40] ∧
    bulkRollCgo [97, 98, 99] 0 0 1 5 = .ret [] ∧
    0 + 1 ≤ ([97, 98, 99] : List Byte).length ∧
    bulkRoll [97, 98, 99] 0 1 2147483648 7 = .ret [7] ∧
    bulkRollCgo [97, 98, 99] 0 1 2147483648 7 = .undefined := by
  decide

/-! ## Safety of the portable bulk loop and its capacity -/

theorem bulkCapacity_mod (n w start stride : Nat) (hn : n < 2 ^ 32) (hw : w < 2 ^ 32)
    (hst : start < 2 ^ 32) (hv : (start + w) % 2 ^ 32 ≤ n) :
    bulkCapacity n w start stride = ((n - (start + w) % 2 ^ 32) / stride + 1) % 2 ^ 32 := by
  have e1 : ((n + 2 ^ 32 - w) % 2 ^ 32 + 2 ^ 32 - start) % 2 ^ 32
      = n - (start + w) % 2 ^ 32 := by omega
  unfold bulkCapacity
  rw [e1]

/-- C19 (amended): for every buffer of length `n`, every `start` and
`windowSize` (both `uint32`) with `start + windowSize ≤ n`, every `stride ≥ 1`
and every initial hash, the portable `bulkRoll` returns: it does not run
forever and no read `buf[pos]` or `buf[pos+windowSize]` is out of range (an
out-of-range read is a panic). The number of hashes it returns is at most
`(n - windowSize - start) / stride + 1`, and it is at most the `uint32`
capacity computed up front unless `uint32(n) = 2^32 - 1`,
`start + windowSize` is a multiple of `2^32` and `stride = 1`, the one case in
which the `+ 1` of the capacity wraps to 0. -/
theorem bulk_roll_safe (buf : List Byte) (start windowSize stride initialHash : Nat)
    (hst : start < 2 ^ 32) (hw : windowSize < 2 ^ 32)
    (hfit : start + windowSize ≤ buf.length) (hs : 1 ≤ stride) :
    ∃ hashes, bulkRoll buf start windowSize stride initialHash = .ret hashes ∧
      hashes.length ≤ (buf.length - windowSize - start) / stride + 1 ∧
      (¬ (buf.length % 2 ^ 32 = 2 ^ 32 - 1 ∧ (start + windowSize) % 2 ^ 32 = 0 ∧ stride = 1) →
        hashes.length ≤ bulkCapacity (buf.length % 2 ^ 32) windowSize start stride) := by
  obtain ⟨l, hres, hcount⟩ := bulkOuter_count buf windowSize stride hw (by omega) (2 ^ 32)
    start initialHash [] hst (fun _ => hfit) (by omega)
  have hs0 : stride ≠ 0 := by omega
  have hn : buf.length % 2 ^ 32 < 2 ^ 32 := Nat.mod_lt _ (by decide)
  refine ⟨l, ?_, ?_, ?_⟩
  · simp only [bulkRoll, hs0, if_false, hres, List.nil_append]
  · rw [hcount]
    split
    · exact Nat.zero_le _
    · apply Nat.add_le_add_right
      apply Nat.div_le_div_right
      omega
  · intro hne
    rw [hcount]
    split
    · exact Nat.zero_le _
    · rename_i hgt
      have hv : (start + windowSize) % 2 ^ 32 ≤ buf.length % 2 ^ 32 := by omega
      rw [bulkCapacity_mod _ _ _ stride hn hw hst hv]
      have hlt : (buf.length % 2 ^ 32 - (start + windowSize) % 2 ^ 32) / stride + 1
          < 2 ^ 32 := by
        by_cases h1 : stride = 1
        · subst h1
          rw [Nat.div_one]
          omega
        · have h2 : (buf.length % 2 ^ 32 - (start + windowSize) % 2 ^ 32) / stride
              ≤ (buf.length % 2 ^ 32 - (start + windowSize) % 2 ^ 32) / 2 :=
            Nat.div_le_div_left (by omega) (by decide)
          omega
      rw [Nat.mod_eq_of_lt hlt]

/-- C19, witness: the buffer "abcdefghijkx" from position 1 with window 3,
stride 2 and initial hash 5. -/
theorem bulk_roll_safe_witness :
    1 + 3 ≤ ([97, 98, 99, 100, 101, 102, 103, 104, 105, 106, 107, 120] : List Byte).length ∧
    ∃ hashes, bulkRoll [97, 98, 99, 100, 101, 102, 103, 104, 105, 106, 107, 120] 1 3 2 5
        = .ret hashes ∧
      hashes.length
        ≤ (([97, 98, 99, 100, 101, 102, 103, 104, 105, 106, 107, 120] : List Byte).length
            - 3 - 1) / 2 + 1 ∧
      (¬ (([97, 98, 99, 100, 101, 102, 103, 104, 105, 106, 107, 120] : List Byte).length
            % 2 ^ 32 = 2 ^ 32 - 1 ∧ (1 + 3) % 2 ^ 32 = 0 ∧ 2 = 1) →
        hashes.length ≤ bulkCapacity
          (([97, 98, 99, 100, 101, 102, 103, 104, 105, 106, 107, 120] : List Byte).length
            % 2 ^ 32) 3 1 2) :=
  ⟨by decide,
    bulk_roll_safe [97, 98, 99, 100, 101, 102, 103, 104, 105, 106, 107, 120] 1 3 2 5
      (by decide) (by decide) (by decide) (by decide)⟩

/-- On a buffer of `2^32 - 1` bytes with start 0, window 0 and stride 1 the
portable `bulkRoll` returns `2^32` hashes and the capacity it computes is 0. -/
theorem bulkRoll_capacity_wraps (b : List Byte) (hb : b.length = 2 ^ 32 - 1) :
    0 + 0 ≤ b.length ∧ 1 ≤ 1 ∧
    ∃ hashes, bulkRoll b 0 0 1 0 = .ret hashes ∧ hashes.length = 2 ^ 32 ∧
      bulkCapacity (b.length % 2 ^ 32) 0 0 1 = 0 ∧
      ¬ hashes.length ≤ bulkCapacity (b.length % 2 ^ 32) 0 0 1 := by
  obtain ⟨l, hres, hcount⟩ := bulkOuter_count b 0 1 (by decide) (by decide) (2 ^ 32)
    0 0 [] (by decide) (fun _ => Nat.zero_le _) (by omega)
  have hm : b.length % 2 ^ 32 = 2 ^ 32 - 1 := by rw [hb]; decide
  have hcap : bulkCapacity (2 ^ 32 - 1) 0 0 1 = 0 := by decide
  have hlen : l.length = 2 ^ 32 := by
    rw [hcount, hm]
    decide
  refine ⟨Nat.zero_le _, Nat.le_refl _, l, ?_, hlen, ?_, ?_⟩
  · have h10 : (1 : Nat) ≠ 0 := by decide
    simp only [bulkRoll, h10, if_false, hres, List.nil_append]
  · rw [hm, hcap]
  · rw [hm, hcap, hlen]
    decide

/-- C19, counterexample to the claim as stated: on a buffer of `2^32 - 1`
zero bytes with start 0, `windowSize = 0`, stride 1 and initial hash 0,
`bulkRoll` returns `2^32` hashes, more than the capacity
`(n - windowSize - start)/stride + 1` it computed up front, which wrapped to
0 in `uint32`. -/
theorem bulk_roll_exceeds_wrapped_capacity :
    0 + 0 ≤ (List.replicate (2 ^ 32 - 1) (0 : Byte)).length ∧ 1 ≤ 1 ∧
    ∃ hashes, bulkRoll (List.replicate (2 ^ 32 - 1) (0 : Byte)) 0 0 1 0 = .ret hashes ∧
      hashes.length = 2 ^ 32 ∧
      bulkCapacity ((List.replicate (2 ^ 32 - 1) (0 : Byte)).length % 2 ^ 32) 0 0 1 = 0 ∧
      ¬ hashes.length
        ≤ bulkCapacity ((List.replicate (2 ^ 32 - 1) (0 : Byte)).length % 2 ^ 32) 0 0 1 :=
  bulkRoll_capacity_wraps _ (List.length_replicate _ _)

end Buzhash
